import Mathlib

/-!
# Verification of the reactive-framework core against its specification

This file gives a shallow embedding, in Lean 4, of the core of the
`reactive_framework` Python package (the package the claims cite):

* `core/collection.py`   — `Collection` (base collection store),
* `core/compute_graph.py` — `ComputeGraph`, `ComputedCollection`,
* `core/resource.py`     — `ResourceManager`,
* `core/types.py`        — `Change`, `ComputeResult` (pydantic models),
* `classic/service.py`   — the create-stream response shape.

Modelling conventions, used throughout and noted again at each definition:

* Python `dict`s become association lists with unique keys in insertion
  order (`dget` / `dset` / `ddel` below mirror `d[k]`, `d[k] = v`, `del d[k]`).
* `datetime.now()` becomes a logical clock `clock : Nat` in the engine state;
  every call of `now()` in the source corresponds to one `tickSt`, which
  returns the current clock value and advances it.  The clock unit is
  microseconds, so within the runs considered here `now` stays far below the
  60-second cache timeout.
* pydantic default values such as `timestamp: datetime = datetime.now()`
  are evaluated **once, when the model class is defined** (standard Python
  semantics for argument-position defaults); they are therefore modelled as
  the module-level constants `changeDefaultTimestamp`/`compResDefaultTimestamp`.
* The sha256 cache key of `ComputedCollection._generate_cache_key` is modelled
  by the list of `(dependency id, last-modified)` pairs it hashes; sha256 is
  used in the source purely as an (assumed collision-free) fingerprint of
  exactly this data.
* Exceptions are modelled by an `err : Option PyErr` field threaded through
  the state: once set, the enclosing loops stop exactly where the Python
  exception would propagate.
* Compute functions (arbitrary Python callables in the source) are modelled
  by `CFun`: a list of base-collection writes they perform while running,
  a `fails` flag (the callable raises), and a result map read from the
  post-write store.  This captures the behaviours the specification talks
  about (pure compute, compute that writes, compute that raises).
-/

set_option autoImplicit false
set_option linter.unusedSectionVars false

namespace ReactiveSpec

/-! ## Python-dict style association lists -/

section Dict

variable {K V : Type} [DecidableEq K]

/-- `d.get(k)` on a Python dict (association list with unique keys). -/
def dget : List (K × V) → K → Option V
  | [], _ => none
  | (k', v) :: t, k => if k' = k then some v else dget t k

/-- `d[k] = v` on a Python dict: update in place if the key exists,
otherwise append (insertion order is preserved). -/
def dset : List (K × V) → K → V → List (K × V)
  | [], k, v => [(k, v)]
  | (k', v') :: t, k, v => if k' = k then (k, v) :: t else (k', v') :: dset t k v

/-- `del d[k]` / `d.pop(k, None)` on a Python dict. -/
def ddel (l : List (K × V)) (k : K) : List (K × V) :=
  l.filter (fun p => ¬ p.1 = k)

/-- Apply `f` to the value stored at `k`, if any (in-place update of the
first matching entry; keys are unique, mirroring mutation of the object a
Python dict entry points to). -/
def dmodify : List (K × V) → K → (V → V) → List (K × V)
  | [], _, _ => []
  | (k', v) :: t, k, f => if k' = k then (k', f v) :: t else (k', v) :: dmodify t k f

@[simp] theorem dget_nil (k : K) : dget ([] : List (K × V)) k = none := rfl

theorem dget_cons (k' : K) (v : V) (t : List (K × V)) (k : K) :
    dget ((k', v) :: t) k = if k' = k then some v else dget t k := rfl

theorem dget_dset_self (l : List (K × V)) (k : K) (v : V) :
    dget (dset l k v) k = some v := by
  induction l with
  | nil => simp [dget, dset]
  | cons p t ih =>
    obtain ⟨a, b⟩ := p
    by_cases h : a = k
    · simp [dset, dget, h]
    · simp [dset, dget, h, ih]

theorem dget_dset_ne (l : List (K × V)) (k k' : K) (v : V) (h : k ≠ k') :
    dget (dset l k v) k' = dget l k' := by
  induction l with
  | nil => simp [dget, dset, h]
  | cons p t ih =>
    obtain ⟨a, b⟩ := p
    by_cases hp : a = k
    · subst hp; simp [dset, dget, h, Ne.symm h]
    · by_cases hp' : a = k'
      · simp [dset, dget, hp, hp', Ne.symm h]
      · simp [dset, dget, hp, hp', ih]

theorem dget_dmodify_self (l : List (K × V)) (k : K) (f : V → V) :
    dget (dmodify l k f) k = (dget l k).map f := by
  induction l with
  | nil => simp [dget, dmodify]
  | cons p t ih =>
    obtain ⟨a, b⟩ := p
    by_cases h : a = k
    · simp [dmodify, dget, h]
    · simp [dmodify, dget, h, ih]

theorem dget_dmodify_ne (l : List (K × V)) (k k' : K) (f : V → V) (h : k ≠ k') :
    dget (dmodify l k f) k' = dget l k' := by
  induction l with
  | nil => simp [dget, dmodify]
  | cons p t ih =>
    obtain ⟨a, b⟩ := p
    by_cases hp : a = k
    · subst hp; simp [dmodify, dget, h, Ne.symm h]
    · by_cases hp' : a = k'
      · simp [dmodify, dget, hp, hp', Ne.symm h]
      · simp [dmodify, dget, hp, hp', ih]

theorem dget_isSome_mem_keys (l : List (K × V)) (k : K) :
    (dget l k).isSome → k ∈ l.map Prod.fst := by
  induction l with
  | nil => simp [dget]
  | cons p t ih =>
    by_cases h : p.1 = k
    · simp [dget, h]
    · simp only [dget, h, if_false, List.map_cons, List.mem_cons]
      exact fun hs => Or.inr (ih hs)

theorem dget_filter_key (l : List (K × V)) (q : K → Bool) (k : K) :
    dget (l.filter (fun p => q p.1)) k =
      if q k then dget l k else dget (l.filter (fun p => q p.1)) k := by
  by_cases h : q k
  · simp only [h, if_true]
    induction l with
    | nil => simp
    | cons p t ih =>
      by_cases hp : p.1 = k
      · subst hp; simp [List.filter, h, dget]
      · by_cases hq : q p.1 <;> simp [List.filter, hq, dget, hp, ih]
  · simp [h]

/-- Looking up in a key-filtered dict: present iff the key passes the filter. -/
theorem dget_filter_key_of_pass (l : List (K × V)) (q : K → Bool) (k : K)
    (h : q k = true) : dget (l.filter (fun p => q p.1)) k = dget l k := by
  have := dget_filter_key l q k
  simpa [h] using this

theorem dget_filter_key_of_fail (l : List (K × V)) (q : K → Bool) (k : K)
    (h : q k = false) : dget (l.filter (fun p => q p.1)) k = none := by
  induction l with
  | nil => simp
  | cons p t ih =>
    by_cases hq : q p.1
    · have hp : ¬ p.1 = k := by intro e; rw [e] at hq; simp [h] at hq
      simp [List.filter, hq, dget, hp, ih]
    · simp [List.filter, hq, ih]

theorem dget_eq_none_of_not_mem_keys (l : List (K × V)) (k : K)
    (h : k ∉ l.map Prod.fst) : dget l k = none := by
  induction l with
  | nil => rfl
  | cons p t ih =>
    simp only [List.map_cons, List.mem_cons, not_or] at h
    have hne : ¬ p.1 = k := fun e => h.1 e.symm
    rw [dget_cons, if_neg hne]
    exact ih h.2

theorem dget_isSome_iff_mem_keys (l : List (K × V)) (k : K) :
    (dget l k).isSome ↔ k ∈ l.map Prod.fst := by
  induction l with
  | nil => simp [dget]
  | cons p t ih =>
    rw [dget_cons]
    by_cases hp : p.1 = k
    · simp [hp]
    · simp only [if_neg hp, List.map_cons, List.mem_cons]
      rw [ih]
      constructor
      · exact Or.inr
      · rintro (h | h)
        · exact absurd h.symm hp
        · exact h

/-- With unique keys, membership and lookup agree. -/
theorem dget_some_iff_mem (l : List (K × V)) (k : K) (v : V)
    (hnodup : (l.map Prod.fst).Nodup) : dget l k = some v ↔ (k, v) ∈ l := by
  induction l with
  | nil => simp [dget]
  | cons p t ih =>
    obtain ⟨a, b⟩ := p
    simp only [List.map_cons, List.nodup_cons] at hnodup
    by_cases hp : a = k
    · subst hp
      rw [dget_cons, if_pos rfl]
      simp only [List.mem_cons, Prod.mk.injEq, Option.some.injEq]
      constructor
      · intro e
        exact Or.inl (by simp [e])
      · rintro (⟨-, rfl⟩ | hmem)
        · rfl
        · exact absurd (List.mem_map_of_mem Prod.fst hmem) hnodup.1
    · rw [dget_cons, if_neg hp]
      rw [ih hnodup.2]
      simp only [List.mem_cons, Prod.mk.injEq]
      constructor
      · exact Or.inr
      · rintro (⟨rfl, -⟩ | hmem)
        · exact absurd rfl hp
        · exact hmem

end Dict

/-! ## Core data model (`core/types.py`)

`Change` and `ComputeResult` are pydantic models whose `timestamp` /
`computed_at` fields have the *value* default `datetime.now()`.  A Python
default expression in value position is evaluated once, when the class body
is executed at import time, and the resulting value is shared by every
subsequent instantiation that does not pass the field explicitly.  The
import-time instant is modelled as the constant `0` below; the engine clock
starts above it. -/

/-- The single instant at which `datetime.now()` was evaluated for the
`Change.timestamp` default (import time of `core/types.py`). -/
def changeDefaultTimestamp : Nat := 0

/-- The single instant at which `datetime.now()` was evaluated for the
`ComputeResult.computed_at` default (import time of `core/types.py`). -/
def compResDefaultTimestamp : Nat := 0

/-- `Change` (core/types.py): a mutation of one key of one collection.
`none` models Python `None` for the optional old/new values. -/
structure Chg (K V : Type) where
  key : K
  oldValue : Option V
  newValue : Option V
  timestamp : Nat
  deriving DecidableEq, Repr

/-- Build a `Change` without an explicit timestamp: the pydantic default
(the import-time constant) is used, regardless of the current clock. -/
def mkChg {K V : Type} (k : K) (old new : Option V) : Chg K V :=
  ⟨k, old, new, changeDefaultTimestamp⟩

/-- `ComputeResult` (core/types.py).  The cache key sha256 string is
modelled by the data it hashes: the list of `(dependency id, last-modified)`
pairs from `_generate_cache_key`. -/
structure CompRes (K V : Type) where
  changes : List (Chg K V)
  cacheKey : List (String × Nat)
  computedAt : Nat
  deriving DecidableEq, Repr

/-- `DependencyNode` (core/types.py): per-collection graph bookkeeping. -/
structure NodeR where
  dependencies : List String
  dependents : List String
  invalidated : Bool
  lastComputed : Option Nat
  deriving DecidableEq, Repr

instance : Inhabited NodeR := ⟨⟨[], [], false, none⟩⟩

/-- Exceptions that the modelled code can raise. -/
inductive PyErr where
  /-- a compute function raised (arbitrary exception) -/
  | computeError
  /-- `TypeError` (e.g. a call with the wrong number of arguments) -/
  | typeError
  /-- `ValueError` -/
  | valueError
  deriving DecidableEq, Repr

/-- A compute function (`ComputedCollection._compute_func`), which in the
source is an arbitrary Python callable.  It is modelled by the effects the
specification discusses: the base-collection writes it performs while it
runs, whether it raises, and the full result map it returns, read from the
post-write store (`view` maps a collection name to its current items). -/
structure CFun (K V : Type) where
  writes : List (String × K × V) := []
  fails : Bool := false
  result : (String → List (K × V)) → List (K × V)

/-- One collection's state (`Collection.__init__` fields).
`cfun = none` for a base collection; `some _` for a `ComputedCollection`
with a compute function installed.  Change callbacks are not stored as
closures: every callback invocation is appended to the engine-state log
instead (`St.log`), preserving order. -/
structure CollR (K V : Type) where
  data : List (K × V)
  lastModified : Nat
  cache : List (List (String × Nat) × CompRes K V)
  cfun : Option (CFun K V)

instance {K V : Type} : Inhabited (CollR K V) := ⟨⟨[], 0, [], none⟩⟩

/-- The whole engine state: the `ComputeGraph` (nodes and collections, both
keyed by collection name), the `_computation_in_progress` set, the
`_coordinated_update_in_progress` flag, the logical clock standing for
`datetime.now()`, the ordered log of change-callback invocations
(collection name, change), the instrumentation log of compute-function
invocations, and the pending exception (`none` = no exception in flight). -/
structure St (K V : Type) where
  nodes : List (String × NodeR)
  colls : List (String × CollR K V)
  inProgress : List String := []
  flag : Bool := false
  clock : Nat := 1
  log : List (String × Chg K V) := []
  computeLog : List String := []
  err : Option PyErr := none

section Engine

variable {K V : Type} [DecidableEq K] [DecidableEq V]

/-- `self._nodes[node_id]` with a default (claims only exercise registered
names; Python would raise `KeyError` on a miss). -/
def nodeOf (s : St K V) (n : String) : NodeR := (dget s.nodes n).getD default

/-- `self._collections[name]` with a default (see `nodeOf`). -/
def collOf (s : St K V) (n : String) : CollR K V := (dget s.colls n).getD default

def updateNode (s : St K V) (n : String) (f : NodeR → NodeR) : St K V :=
  { s with nodes := dmodify s.nodes n f }

def updateColl (s : St K V) (n : String) (f : CollR K V → CollR K V) : St K V :=
  { s with colls := dmodify s.colls n f }

/-- One call of `datetime.now()`: returns the current instant and advances
the clock (successive calls yield strictly increasing instants). -/
def tickSt (s : St K V) : Nat × St K V := (s.clock, { s with clock := s.clock + 1 })

/-- The view of the store a compute function reads (`collection.get_all()`
style access by name). -/
def storeView (s : St K V) : String → List (K × V) := fun n => (collOf s n).data

/-- `_cache_timeout = timedelta(seconds=60)`, in clock units (microseconds). -/
def cacheTimeoutMicros : Nat := 60000000

/-! ### `Collection.set` / `Collection.delete` (core/collection.py)

`set` stores the value, stamps `_last_modified = datetime.now()`, builds the
`Change` (with the pydantic default timestamp) and calls `_notify_observers`:
first every observer's `_handle_change` — which for a `ComputedCollection`
is exactly `recompute_invalidated(self.name)` — then the collection's own
change callbacks.  Observers are registered by `add_dependency` in the same
step that appends to the node's `dependents` list, so the observer list of a
collection is its node's `dependents` list, in order.  An exception raised
by an observer aborts the loop and propagates out of `set` before the
callbacks run. -/

/-- `Collection.set`, parametrised by the engine's recompute entry point
(`recomp`), which an observing `ComputedCollection._handle_change` calls. -/
def pySetW (recomp : St K V → String → St K V) (s : St K V) (c : String) (k : K)
    (v : V) : St K V :=
  let coll := collOf s c
  let old := dget coll.data k
  let s := updateColl s c (fun cl => { cl with data := dset cl.data k v })
  let t := tickSt s
  let s := updateColl t.2 c (fun cl => { cl with lastModified := t.1 })
  let ch : Chg K V := mkChg k old (some v)
  let obs := (nodeOf s c).dependents
  let s := obs.foldl (fun s o => if s.err.isSome then s else recomp s o) s
  if s.err.isSome then s else { s with log := s.log ++ [(c, ch)] }

/-- `Collection.delete`, parametrised like `pySetW`. -/
def pyDeleteW (recomp : St K V → String → St K V) (s : St K V) (c : String)
    (k : K) : St K V :=
  let coll := collOf s c
  let old := dget coll.data k
  let s := updateColl s c (fun cl => { cl with data := ddel cl.data k })
  let t := tickSt s
  let s := updateColl t.2 c (fun cl => { cl with lastModified := t.1 })
  let ch : Chg K V := mkChg k old none
  let obs := (nodeOf s c).dependents
  let s := obs.foldl (fun s o => if s.err.isSome then s else recomp s o) s
  if s.err.isSome then s else { s with log := s.log ++ [(c, ch)] }

/-! ### `ComputedCollection._compute` (core/compute_graph.py, lines 208-271) -/

/-- Applying one cached change to the stored data, as the cache-replay
branch of `_compute` does (`pop` on `new_value is None`, assignment
otherwise). -/
def replayStep (d : List (K × V)) (ch : Chg K V) : List (K × V) :=
  match ch.newValue with
  | none => ddel d ch.key
  | some v => dset d ch.key v

/-- One iteration of the updates/additions loop of `_compute` (lines
249-256): read `old_value = self._data.get(key)` from the evolving data,
emit a change and store the value only when the values differ. -/
def upsertStep (acc : List (Chg K V) × List (K × V)) (p : K × V) :
    List (Chg K V) × List (K × V) :=
  let ov := dget acc.2 p.1
  if ov = some p.2 then acc
  else (acc.1 ++ [mkChg p.1 ov (some p.2)], dset acc.2 p.1 p.2)

/-- The deletion changes of `_compute` (lines 242-246): one deletion change
per key of the old data absent from the new map (iterated in the old data's
order, a deterministic stand-in for Python's set-difference iteration). -/
def delChanges (old new : List (K × V)) : List (Chg K V) :=
  (old.filter (fun p => (dget new p.1).isNone)).map
    (fun p => mkChg p.1 (some p.2) none)

/-- The data remaining after the deletion loop of `_compute`: the old
entries whose keys are still present in the new map. -/
def keptOf (old new : List (K × V)) : List (K × V) :=
  old.filter (fun p => (dget new p.1).isSome)

/-- The fresh-compute diff of `_compute` (lines 237-256): the deletions
(applied to the data as emitted), then the updates/additions pass over the
new map in its own order.  Returns (changes, new stored data).  Every change
carries the pydantic default timestamp. -/
def freshDiff (old new : List (K × V)) : List (Chg K V) × List (K × V) :=
  new.foldl upsertStep (delChanges old new, keptOf old new)

/-- `_generate_cache_key`: the data sha256 actually fingerprints — the
`(dependency id, dependency last-modified)` pairs in `dependencies` order. -/
def cacheKeyFor (s : St K V) (id : String) : List (String × Nat) :=
  (nodeOf s id).dependencies.map (fun d => (d, (collOf s d).lastModified))

/-- The ComputeResult stored by `set_cached_result`: built without an
explicit `computed_at`, hence carrying the import-time default. -/
def storedCompRes (chs : List (Chg K V)) (key : List (String × Nat)) :
    CompRes K V :=
  ⟨chs, key, compResDefaultTimestamp⟩

/-- The compute-function invocation itself (`new_data = self._compute_func()`
at line 235): record the invocation, perform the writes the function makes
while running, then either raise or return the new full contents read from
the post-write store.  `setter` is the full `Collection.set` (so an induced
write goes through the whole observer/notify machinery). -/
def runCFun (setter : St K V → String → K → V → St K V) (s : St K V)
    (id : String) (cf : CFun K V) : St K V × Option (List (K × V)) :=
  let s := { s with computeLog := s.computeLog ++ [id] }
  let s := cf.writes.foldl
    (fun s w => if s.err.isSome then s else setter s w.1 w.2.1 w.2.2) s
  if s.err.isSome then (s, none)
  else if cf.fails then ({ s with err := some .computeError }, none)
  else (s, some (cf.result (storeView s)))

/-- The fresh-compute branch of `_compute` (cache miss or stale): invoke the
compute function, diff against the current contents, store the result in the
cache.  Returns the collected changes (`suppress_notifications=True`). -/
def freshCompute (setter : St K V → String → K → V → St K V) (s : St K V)
    (id : String) (cf : CFun K V) (key : List (String × Nat)) :
    St K V × Option (List (Chg K V)) :=
  let r := runCFun setter s id cf
  match r.2 with
  | none => (r.1, none)
  | some newData =>
      let s := r.1
      let coll := collOf s id
      let d := freshDiff coll.data newData
      let s := updateColl s id (fun cl =>
        { cl with data := d.2, cache := dset cl.cache key (storedCompRes d.1 key) })
      (s, some d.1)

/-- `ComputedCollection._compute` with `suppress_notifications=True`, as
called from the coordinated pass: `None` for a collection without a compute
function; otherwise generate the cache key, and either replay a fresh cached
result (the `datetime.now()` of the freshness test is only evaluated when a
cached entry exists, consuming one clock tick) or compute afresh. -/
def collComputeW (setter : St K V → String → K → V → St K V) (s : St K V)
    (id : String) : St K V × Option (List (Chg K V)) :=
  let coll := collOf s id
  match coll.cfun with
  | none => (s, none)
  | some cf =>
      let key := cacheKeyFor s id
      match dget coll.cache key with
      | some cr =>
          let t := tickSt s
          if t.1 - cr.computedAt < cacheTimeoutMicros then
            let s := updateColl t.2 id (fun cl =>
              { cl with data := cr.changes.foldl replayStep cl.data })
            (s, some cr.changes)
          else freshCompute setter t.2 id cf key
      | none => freshCompute setter s id cf key

/-! ### `ComputeGraph` (core/compute_graph.py) -/

/-- `add_node`: idempotent registration (duplicate names are silently
ignored); the collection itself must be supplied alongside. -/
def addNodeSt (s : St K V) (n : String) (c : CollR K V) : St K V :=
  if (dget s.nodes n).isSome then s
  else { s with nodes := s.nodes ++ [(n, default)], colls := s.colls ++ [(n, c)] }

/-- `add_dependency(dependent, dependency)` (lines 31-41): append
`dependent` to the dependency's `dependents` if absent, and `dependency` to
the dependent's `dependencies` if absent (which also registers the observer;
observers are read back from `dependents`, see `pySetW`).  There is no cycle
check and no error path. -/
def addDependency (s : St K V) (dependent dependency : String) : St K V :=
  let s :=
    if dependent ∈ (nodeOf s dependency).dependents then s
    else updateNode s dependency
      (fun nd => { nd with dependents := nd.dependents ++ [dependent] })
  if dependency ∈ (nodeOf s dependent).dependencies then s
  else updateNode s dependent
    (fun nd => { nd with dependencies := nd.dependencies ++ [dependency] })

/-- `_invalidate_node_recursive`: mark the node invalidated if it was clean
and recurse into its dependents, collecting the newly invalidated names.
The recursion is bounded by marking-before-recursing; the fuel is a
modelling artefact and `recomputeF` passes one above the node count, which
the marking argument makes sufficient. -/
def invalidateF (g : Unit) : Nat → St K V → String → St K V × List String
  | 0, s, _ => (s, [])
  | n + 1, s, id =>
      match dget s.nodes id with
      | none => (s, [])
      | some nd =>
          if nd.invalidated then (s, [])
          else
            let s := updateNode s id (fun nd => { nd with invalidated := true })
            nd.dependents.foldl
              (fun acc d =>
                let r := invalidateF g n acc.1 d
                (r.1, acc.2 ++ r.2))
              (s, [id])

/-- The depth-first visit of `_topological_sort` (lines 132-143): skip on a
temp-stack hit (cycle warning), skip nodes already emitted or unknown,
otherwise visit the `dependencies` in list order and emit in post-order.
`visited` always equals the set of emitted nodes, so only the result list is
threaded.  Fuel: each nesting level pushes a fresh known node onto `temp`,
so any fuel exceeding the number of known nodes not yet on `temp` behaves
like the unbounded Python recursion. -/
def visitF (g : List (String × NodeR)) : Nat → List String → List String →
    String → List String
  | 0, _, res, _ => res
  | n + 1, temp, res, id =>
      if id ∈ temp then res
      else if id ∉ res ∧ (dget g id).isSome then
        (((dget g id).getD default).dependencies.foldl
            (fun r d => visitF g n (id :: temp) r d) res) ++ [id]
      else res

/-- `_topological_sort` over the supplied node ids (the Python iterates a
set; the model preserves the supplied list order, which is one of the orders
the set iteration can produce — no claim depends on the order *across*
independent roots). -/
def topoSortG (g : List (String × NodeR)) (ids : List String) : List String :=
  ids.foldl (fun res id => visitF g (g.length + 1) [] res id) []

/-- `_compute_single_node` (lines 152-178): skip (with a warning) if the
node is already being computed; otherwise compute under the
`computation_in_progress` mark — removed again in the `finally` even when
the compute raises — and on success clear `invalidated` and stamp
`last_computed = datetime.now()`. -/
def computeSingleNodeW (setter : St K V → String → K → V → St K V) (s : St K V)
    (id : String) : St K V × Option (List (Chg K V)) :=
  if id ∈ s.inProgress then (s, none)
  else
    let s := { s with inProgress := s.inProgress ++ [id] }
    let r := collComputeW setter s id
    let s := { r.1 with inProgress := r.1.inProgress.filter (fun x => ¬ x = id) }
    if s.err.isSome then (s, none)
    else
      let t := tickSt s
      let s := updateNode t.2 id
        (fun nd => { nd with invalidated := false, lastComputed := some t.1 })
      (s, r.2)

/-- The compute loop of `recompute_invalidated` (lines 105-111): walk the
sorted nodes, recompute those still invalidated, accumulate truthy change
lists into `all_changes`; an exception propagates out of the loop at once. -/
def computeLoopW (setter : St K V → String → K → V → St K V) :
    St K V → List String → List (String × List (Chg K V)) →
    St K V × List (String × List (Chg K V))
  | s, [], acc => (s, acc)
  | s, id :: rest, acc =>
      if (nodeOf s id).invalidated then
        let r := computeSingleNodeW setter s id
        if r.1.err.isSome then (r.1, acc)
        else
          let acc :=
            match r.2 with
            | some chs => if chs = [] then acc else acc ++ [(id, chs)]
            | none => acc
          computeLoopW setter r.1 rest acc
      else computeLoopW setter s rest acc

/-- The notification loop of `recompute_invalidated` (lines 114-119): for
each sorted node with collected changes, invoke the collection's change
callbacks only (modelled by appending to the dispatch log) in order. -/
def dispatchLoopSt (s : St K V) (sorted : List String)
    (acc : List (String × List (Chg K V))) : St K V :=
  sorted.foldl
    (fun s id =>
      match dget acc id with
      | some chs => { s with log := s.log ++ chs.map (fun c => (id, c)) }
      | none => s)
    s

/-- `recompute_invalidated(starting_node_id)` (lines 81-121).  If a
coordinated update is already in progress, return immediately.  Otherwise
set the flag, invalidate the start node and its transitive dependents,
topologically sort the invalidated set, run the compute loop, and — only
when no compute raised — run the dispatch loop; the `finally` clears the
flag on both paths and an exception then propagates to the caller.
The fuel only limits the `set → notify observer → recompute` re-entrance
chain; a nested call always returns at the flag test, so any positive fuel
reproduces the Python behaviour. -/
def recomputeF : Nat → St K V → String → St K V
  | 0, s, _ => s
  | n + 1, s, start =>
      if s.flag then s
      else
        let s1 : St K V := { s with flag := true }
        let r := invalidateF () (s1.nodes.length + 1) s1 start
        let sorted := topoSortG r.1.nodes r.2
        let lr := computeLoopW (pySetW (fun st o => recomputeF n st o)) r.1 sorted []
        if lr.1.err.isSome then { lr.1 with flag := false }
        else { dispatchLoopSt lr.1 sorted lr.2 with flag := false }

/-- The public `Collection.set` on a collection registered in the graph: an
observing computed collection reacts via `recompute_invalidated`.  Fuel 2 is
one more than any chain in which every nested `recompute_invalidated` call
returns at the flag test (which is all of them). -/
def pySet (s : St K V) (c : String) (k : K) (v : V) : St K V :=
  pySetW (fun st o => recomputeF 2 st o) s c k v

/-- The public `Collection.delete`. -/
def pyDelete (s : St K V) (c : String) (k : K) : St K V :=
  pyDeleteW (fun st o => recomputeF 2 st o) s c k

end Engine

/-! ## Resource manager and service layer
(`core/resource.py`, `classic/service.py`)

JSON-ish Python values are modelled by `PyVal`, with Python truthiness
(`if change.new_value:`) as `truthy`. -/

inductive PyVal where
  /-- Python `None` -/
  | none
  | int (n : Int)
  | str (s : String)
  | bool (b : Bool)
  deriving DecidableEq, Repr

/-- Python truthiness: `None`, `0`, `""` and `False` are falsy. -/
def truthy : PyVal → Bool
  | .none => false
  | .int n => decide (n ≠ 0)
  | .str s => decide (s ≠ "")
  | .bool b => b

/-- The change record as the resource layer sees it: pydantic `Change`
fields hold `None` (modelled `PyVal.none`) for an absent old/new value. -/
structure ChgP where
  key : PyVal
  oldValue : PyVal
  newValue : PyVal
  deriving DecidableEq, Repr

/-- SSE message payloads that occur in `ResourceManager`:
`init` carries `list(collection.iter_items())` (key/value tuples), `update`
carries `[[key, [new_value] or []]]` pairs, `close` carries a reason. -/
inductive MsgData where
  | items (l : List (PyVal × PyVal))
  | updates (l : List (PyVal × List PyVal))
  | closeReason (r : String)
  deriving DecidableEq, Repr

/-- `SSEMessage` (event name and payload; `id`/`retry` are unused by the
modelled call sites). -/
structure Msg where
  event : String
  data : MsgData
  deriving DecidableEq, Repr

/-- The `data` payload built by the `on_change` closure in
`ResourceManager.subscribe` (lines 116-121):
`[[change.key, [change.new_value] if change.new_value else []]]` —
note the *truthiness* test on `new_value`. -/
def onChangeUpdateData (ch : ChgP) : List (PyVal × List PyVal) :=
  [(ch.key, if truthy ch.newValue then [ch.newValue] else [])]

/-- The full `update` event the `on_change` closure enqueues. -/
def onChangeUpdateMsg (ch : ChgP) : Msg := ⟨"update", .updates (onChangeUpdateData ch)⟩

/-- `ResourceInstance` (core/types.py); the pydantic `created_at` /
`last_accessed` defaults are the same import-time constants as for `Change`
and are irrelevant to the claims, so only the identifying fields are kept. -/
structure InstRec where
  resourceName : String
  params : List (String × String)
  deriving DecidableEq, Repr

/-- The leaf collection as the resource layer uses it: its current items
(`iter_items`) and its installed change callbacks (`_change_callbacks`),
recorded by the instance id that installed them. -/
structure CollLite where
  items : List (PyVal × PyVal)
  callbacks : List Nat
  deriving DecidableEq, Repr

/-- Sort a parameter dict by key (string keys are unique), as
`sorted(params.items())` does in `_get_param_hash`. -/
def insertSorted (x : String × String) : List (String × String) → List (String × String)
  | [] => [x]
  | y :: t => if x.1 ≤ y.1 then x :: y :: t else y :: insertSorted x t

def sortParams (l : List (String × String)) : List (String × String) :=
  l.foldr insertSorted []

/-- `_get_param_hash`: the string `f"{resource_name}:{str(sorted_params)}"`,
modelled by the data it is built from (the formatting is injective for
string-valued parameter dicts). -/
def paramHash (name : String) (params : List (String × String)) :
    String × List (String × String) :=
  (name, sortParams params)

/-- `ResourceManager` state.  Instance ids are `Nat`: `uuid.uuid4()` is
modelled as a fresh nonce drawn from `counter` — the only property of uuid4
the code relies on is that a fresh uuid differs from every existing one.
The subscriber queues (`asyncio.Queue` objects owned by the callers) are
bundled here as `queues` so that `queue.put` is observable. -/
structure RMgr where
  instances : List (Nat × InstRec) := []
  collections : List (Nat × CollLite) := []
  subscribers : List (Nat × List Nat) := []
  byParams : List (String × List ((String × List (String × String)) × Nat)) := []
  counter : Nat := 0
  queues : List (Nat × List Msg) := []

/-- `find_existing_instance` (lines 29-41): look the param hash up under the
resource name and check the instance still exists.  (The `if instance_id`
truthiness test is always true for a uuid string and is dropped.) -/
def findExisting (rm : RMgr) (name : String) (params : List (String × String)) :
    Option Nat :=
  let h := paramHash name params
  match dget rm.byParams name with
  | Option.none => Option.none
  | some inner =>
      match dget inner h with
      | some iid => if (dget rm.instances iid).isSome then some iid else Option.none
      | Option.none => Option.none

/-- `create_instance` (lines 43-68): return an existing matching instance
unchanged, else mint a fresh id, record the instance, its collection, an
empty subscriber set, and index it by parameter hash. -/
def createInstance (rm : RMgr) (name : String) (params : List (String × String))
    (c : CollLite) : Nat × RMgr :=
  match findExisting rm name params with
  | some iid => (iid, rm)
  | Option.none =>
      let iid := rm.counter
      let inner := (dget rm.byParams name).getD []
      (iid,
       { rm with
         instances := dset rm.instances iid ⟨name, params⟩
         collections := dset rm.collections iid c
         subscribers := dset rm.subscribers iid []
         byParams := dset rm.byParams name (dset inner (paramHash name params) iid)
         counter := rm.counter + 1 })

/-- The success response of the `create_stream` route
(classic/service.py line 45): `{"instance_id": instance_id}, 200`.
It has exactly one key — there is no `reused` field. -/
def createStreamResponse (iid : Nat) : List (String × Nat) × Nat :=
  ([("instance_id", iid)], 200)

/-- Number of parameters (besides `self`) of `Collection.add_change_callback`
as defined in core/collection.py line 61: `(self, callback)`. -/
def addChangeCallbackParamCount : Nat := 1

/-- Number of positional arguments passed to `add_change_callback` at the
call site in `ResourceManager.subscribe` (core/resource.py line 123):
`collection.add_change_callback(instance_id, on_change)`. -/
def subscribeCallbackArgCount : Nat := 2

/-- `subscribe(instance_id, queue)` (lines 100-123): raise `ValueError` for
an unknown instance; otherwise add the queue to the subscriber set, enqueue
the `init` snapshot message, and then call
`collection.add_change_callback(instance_id, on_change)`.  Python resolves
that call against the method's parameter list: the argument count is
checked against the parameter count, and a mismatch raises `TypeError`
before the callback is stored. -/
def rmSubscribe (rm : RMgr) (iid : Nat) (qid : Nat) : RMgr × Option PyErr :=
  if (dget rm.subscribers iid).isNone then (rm, some .valueError)
  else
    let coll := (dget rm.collections iid).getD ⟨[], []⟩
    let rm := { rm with subscribers := dmodify rm.subscribers iid (fun l => l ++ [qid]) }
    let rm := { rm with
      queues := dmodify rm.queues qid (fun l => l ++ [⟨"init", .items coll.items⟩]) }
    if subscribeCallbackArgCount = addChangeCallbackParamCount then
      let rm := { rm with
        collections :=
          dmodify rm.collections iid (fun c => { c with callbacks := c.callbacks ++ [iid] }) }
      (rm, Option.none)
    else (rm, some .typeError)

/-! ## Helper lemmas about the engine -/

section EngineLemmas

variable {K V : Type} [DecidableEq K] [DecidableEq V]

theorem nodeOf_updateNode_self (s : St K V) (n : String) (f : NodeR → NodeR)
    (h : (dget s.nodes n).isSome) : nodeOf (updateNode s n f) n = f (nodeOf s n) := by
  obtain ⟨nd, hnd⟩ := Option.isSome_iff_exists.mp h
  simp [nodeOf, updateNode, dget_dmodify_self, hnd]

theorem nodeOf_updateNode_ne (s : St K V) (n m : String) (f : NodeR → NodeR)
    (h : n ≠ m) : nodeOf (updateNode s n f) m = nodeOf s m := by
  simp [nodeOf, updateNode, dget_dmodify_ne _ _ _ _ h]

theorem collOf_updateColl_self (s : St K V) (n : String) (f : CollR K V → CollR K V)
    (h : (dget s.colls n).isSome) : collOf (updateColl s n f) n = f (collOf s n) := by
  obtain ⟨cl, hcl⟩ := Option.isSome_iff_exists.mp h
  simp [collOf, updateColl, dget_dmodify_self, hcl]

theorem collOf_updateColl_ne (s : St K V) (n m : String) (f : CollR K V → CollR K V)
    (h : n ≠ m) : collOf (updateColl s n f) m = collOf s m := by
  simp [collOf, updateColl, dget_dmodify_ne _ _ _ _ h]

/-- A fold of `upsertStep` preserves any property that holds of the
accumulated changes and of every change the step can emit. -/
theorem upsertStep_fold_preserves (P : Chg K V → Prop)
    (hstep : ∀ (k : K) (ov : Option V) (v : V), ov ≠ some v → P (mkChg k ov (some v))) :
    ∀ (l : List (K × V)) (acc : List (Chg K V) × List (K × V)),
      (∀ ch ∈ acc.1, P ch) →
      ∀ ch ∈ (l.foldl upsertStep acc).1, P ch := by
  intro l
  induction l with
  | nil => intro acc hacc ch hch; exact hacc ch hch
  | cons p t ih =>
    intro acc hacc ch hch
    simp only [List.foldl_cons] at hch
    refine ih (upsertStep acc p) ?_ ch hch
    intro ch' hch'
    unfold upsertStep at hch'
    by_cases h : dget acc.2 p.1 = some p.2
    · simp only [h, if_pos rfl] at hch'
      exact hacc ch' hch'
    · simp only [if_neg h, List.mem_append, List.mem_singleton] at hch'
      rcases hch' with hch' | rfl
      · exact hacc ch' hch'
      · exact hstep p.1 (dget acc.2 p.1) p.2 h

/-- Every change emitted by the fresh-compute diff has `old ≠ new`. -/
theorem freshDiff_changes_ne (old new : List (K × V)) :
    ∀ ch ∈ (freshDiff old new).1, ch.oldValue ≠ ch.newValue := by
  unfold freshDiff
  apply upsertStep_fold_preserves
  · intro k ov v h
    simpa [mkChg] using h
  · intro ch hch
    unfold delChanges at hch
    simp only [List.mem_map, List.mem_filter] at hch
    obtain ⟨p, _, rfl⟩ := hch
    simp [mkChg]

/-- Every change emitted by the fresh-compute diff carries the pydantic
default timestamp. -/
theorem freshDiff_changes_timestamp (old new : List (K × V)) :
    ∀ ch ∈ (freshDiff old new).1, ch.timestamp = changeDefaultTimestamp := by
  unfold freshDiff
  apply upsertStep_fold_preserves
  · intro k ov v _
    rfl
  · intro ch hch
    unfold delChanges at hch
    simp only [List.mem_map, List.mem_filter] at hch
    obtain ⟨p, _, rfl⟩ := hch
    rfl

/-- The change `Collection.set` builds for a given pre-state. -/
def setChangeOf (s : St K V) (c : String) (k : K) (v : V) : Chg K V :=
  mkChg k (dget (collOf s c).data k) (some v)

/-- `Collection.set` on a registered collection with no observers: the data
is updated, `last_modified` is stamped with the current instant, and the
change — equal value or not — is dispatched to the change callbacks. -/
theorem pySetW_no_obs (r : St K V → String → St K V) (s : St K V) (c : String)
    (k : K) (v : V) (herr : s.err = none)
    (hobs : (nodeOf s c).dependents = []) (hcoll : (dget s.colls c).isSome) :
    (pySetW r s c k v).log = s.log ++ [(c, setChangeOf s c k v)] ∧
    (pySetW r s c k v).err = none ∧
    (collOf (pySetW r s c k v) c).data = dset (collOf s c).data k v ∧
    (collOf (pySetW r s c k v) c).lastModified = s.clock ∧
    (pySetW r s c k v).nodes = s.nodes ∧
    (dget (pySetW r s c k v).colls c).isSome ∧
    (pySetW r s c k v).clock = s.clock + 1 := by
  obtain ⟨cl, hcl⟩ := Option.isSome_iff_exists.mp hcoll
  have hobs' : ((dget s.nodes c).getD default).dependents = [] := by
    simpa [nodeOf] using hobs
  have hcollS : collOf s c = cl := by simp [collOf, hcl]
  unfold pySetW
  simp only [tickSt, updateColl, nodeOf, hobs', List.foldl_nil, herr]
  refine ⟨?_, ?_, ?_, ?_, ?_, ?_, ?_⟩ <;>
    simp [collOf, dget_dmodify_self, hcl, setChangeOf, hcollS, nodeOf, mkChg]

/-- The change `Collection.delete` builds for a given pre-state. -/
def deleteChangeOf (s : St K V) (c : String) (k : K) : Chg K V :=
  mkChg k (dget (collOf s c).data k) none

/-- `Collection.delete` on a registered collection with no observers. -/
theorem pyDeleteW_no_obs (r : St K V → String → St K V) (s : St K V) (c : String)
    (k : K) (herr : s.err = none)
    (hobs : (nodeOf s c).dependents = []) (hcoll : (dget s.colls c).isSome) :
    (pyDeleteW r s c k).log = s.log ++ [(c, deleteChangeOf s c k)] ∧
    (collOf (pyDeleteW r s c k) c).lastModified = s.clock := by
  obtain ⟨cl, hcl⟩ := Option.isSome_iff_exists.mp hcoll
  have hobs' : ((dget s.nodes c).getD default).dependents = [] := by
    simpa [nodeOf] using hobs
  have hcollS : collOf s c = cl := by simp [collOf, hcl]
  unfold pyDeleteW
  simp only [tickSt, updateColl, nodeOf, hobs', List.foldl_nil, herr]
  refine ⟨?_, ?_⟩ <;>
    simp [collOf, dget_dmodify_self, hcl, deleteChangeOf, hcollS, nodeOf, mkChg]

/-! ### Characterisation of the fresh-compute diff -/

/-- The change part of the upsert fold, as a per-key filter-map: with unique
new keys, each key's old value is read from the starting data (later steps
only touch other keys). -/
theorem upsertFold_changes (new : List (K × V)) :
    ∀ (d0 : List (K × V)) (chs0 : List (Chg K V)),
      (new.map Prod.fst).Nodup →
      (new.foldl upsertStep (chs0, d0)).1 =
        chs0 ++ new.filterMap (fun p =>
          if dget d0 p.1 = some p.2 then none
          else some (mkChg p.1 (dget d0 p.1) (some p.2))) := by
  induction new with
  | nil => intro d0 chs0 _; simp
  | cons p t ih =>
    intro d0 chs0 hnodup
    simp only [List.map_cons, List.nodup_cons] at hnodup
    have hkey : ∀ q ∈ t, dget (dset d0 p.1 p.2) q.1 = dget d0 q.1 := by
      intro q hq
      have : p.1 ≠ q.1 := fun e => hnodup.1 (e ▸ List.mem_map_of_mem Prod.fst hq)
      exact dget_dset_ne _ _ _ _ this
    by_cases h : dget d0 p.1 = some p.2
    · have hstep : upsertStep (chs0, d0) p = (chs0, d0) := by
        unfold upsertStep; dsimp only; rw [if_pos h]
      simp only [List.foldl_cons, hstep]
      rw [ih d0 chs0 hnodup.2]
      simp [List.filterMap_cons, h]
    · have hstep : upsertStep (chs0, d0) p =
          (chs0 ++ [mkChg p.1 (dget d0 p.1) (some p.2)], dset d0 p.1 p.2) := by
        unfold upsertStep; dsimp only; rw [if_neg h]
      simp only [List.foldl_cons, hstep]
      rw [ih (dset d0 p.1 p.2) _ hnodup.2]
      rw [List.filterMap_congr (fun q hq => by rw [hkey q hq])]
      simp [List.filterMap_cons, h]

/-- The data part of the upsert fold, pointwise: keys of the new map get
their new values, all other keys keep their starting values. -/
theorem upsertFold_data (new : List (K × V)) :
    ∀ (d0 : List (K × V)) (chs0 : List (Chg K V)) (k : K),
      (new.map Prod.fst).Nodup →
      dget (new.foldl upsertStep (chs0, d0)).2 k =
        (match dget new k with
         | some v => some v
         | none => dget d0 k) := by
  induction new with
  | nil => intro d0 chs0 k _; simp [dget]
  | cons p t ih =>
    intro d0 chs0 k hnodup
    simp only [List.map_cons, List.nodup_cons] at hnodup
    by_cases hk : p.1 = k
    · subst hk
      have htk : dget t p.1 = none :=
        dget_eq_none_of_not_mem_keys t p.1 hnodup.1
      rw [dget_cons, if_pos rfl]
      by_cases h : dget d0 p.1 = some p.2
      · have hstep : upsertStep (chs0, d0) p = (chs0, d0) := by
          unfold upsertStep; dsimp only; rw [if_pos h]
        rw [List.foldl_cons, hstep, ih d0 chs0 p.1 hnodup.2, htk]
        exact h
      · have hstep : upsertStep (chs0, d0) p =
            (chs0 ++ [mkChg p.1 (dget d0 p.1) (some p.2)], dset d0 p.1 p.2) := by
          unfold upsertStep; dsimp only; rw [if_neg h]
        rw [List.foldl_cons, hstep, ih _ _ p.1 hnodup.2, htk]
        exact dget_dset_self d0 p.1 p.2
    · rw [dget_cons, if_neg hk]
      by_cases h : dget d0 p.1 = some p.2
      · have hstep : upsertStep (chs0, d0) p = (chs0, d0) := by
          unfold upsertStep; dsimp only; rw [if_pos h]
        rw [List.foldl_cons, hstep, ih d0 chs0 k hnodup.2]
      · have hstep : upsertStep (chs0, d0) p =
            (chs0 ++ [mkChg p.1 (dget d0 p.1) (some p.2)], dset d0 p.1 p.2) := by
          unfold upsertStep; dsimp only; rw [if_neg h]
        rw [List.foldl_cons, hstep, ih _ _ k hnodup.2]
        cases htk : dget t k with
        | some v => rfl
        | none => exact dget_dset_ne d0 p.1 k p.2 hk

theorem keptOf_pass (old new : List (K × V)) (k : K)
    (h : (dget new k).isSome) : dget (keptOf old new) k = dget old k :=
  dget_filter_key_of_pass old (fun x => (dget new x).isSome) k h

theorem keptOf_fail (old new : List (K × V)) (k : K)
    (h : (dget new k).isSome = false) : dget (keptOf old new) k = none :=
  dget_filter_key_of_fail old (fun x => (dget new x).isSome) k h

/-- After a fresh compute the stored contents equal the new mapping,
pointwise. -/
theorem freshDiff_data_dget (old new : List (K × V))
    (hnN : (new.map Prod.fst).Nodup) (k : K) :
    dget (freshDiff old new).2 k = dget new k := by
  unfold freshDiff
  rw [upsertFold_data new _ _ k hnN]
  cases hk : dget new k with
  | some v => rfl
  | none => exact keptOf_fail old new k (by simp [hk])

/-- Deletion changes of the fresh diff: exactly the keys of the old data
absent from the new map, with their old values. -/
theorem freshDiff_del_iff (old new : List (K × V))
    (hnO : (old.map Prod.fst).Nodup) (hnN : (new.map Prod.fst).Nodup)
    (k : K) (ov : V) :
    mkChg k (some ov) none ∈ (freshDiff old new).1 ↔
      dget old k = some ov ∧ dget new k = none := by
  unfold freshDiff
  rw [upsertFold_changes new _ _ hnN]
  simp only [List.mem_append, List.mem_filterMap]
  constructor
  · rintro (hdel | ⟨p, hp, hfp⟩)
    · unfold delChanges at hdel
      simp only [List.mem_map, List.mem_filter] at hdel
      obtain ⟨p, ⟨hpold, hpnone⟩, heq⟩ := hdel
      have hk : p.1 = k := congrArg Chg.key heq
      have hv : some p.2 = some ov := congrArg Chg.oldValue heq
      have hv' : p.2 = ov := Option.some.inj hv
      refine ⟨?_, ?_⟩
      · rw [dget_some_iff_mem old k ov hnO, ← hk, ← hv']
        exact hpold
      · rw [← hk]
        simpa using hpnone
    · by_cases hg : dget (keptOf old new) p.1 = some p.2
      · rw [if_pos hg] at hfp
        exact Option.noConfusion hfp
      · rw [if_neg hg] at hfp
        have := congrArg Chg.newValue (Option.some.inj hfp)
        exact Option.noConfusion this
  · rintro ⟨hold, hnew⟩
    left
    unfold delChanges
    simp only [List.mem_map, List.mem_filter]
    exact ⟨(k, ov), ⟨(dget_some_iff_mem old k ov hnO).mp hold, by simp [hnew]⟩, rfl⟩

/-- Insertion changes of the fresh diff: exactly the keys of the new map
absent from the old data, with their new values. -/
theorem freshDiff_ins_iff (old new : List (K × V))
    (hnO : (old.map Prod.fst).Nodup) (hnN : (new.map Prod.fst).Nodup)
    (k : K) (nv : V) :
    mkChg k none (some nv) ∈ (freshDiff old new).1 ↔
      dget old k = none ∧ dget new k = some nv := by
  unfold freshDiff
  rw [upsertFold_changes new _ _ hnN]
  simp only [List.mem_append, List.mem_filterMap]
  constructor
  · rintro (hdel | ⟨p, hp, hfp⟩)
    · unfold delChanges at hdel
      simp only [List.mem_map, List.mem_filter] at hdel
      obtain ⟨p, -, heq⟩ := hdel
      exact Option.noConfusion (congrArg Chg.oldValue heq)
    · by_cases hg : dget (keptOf old new) p.1 = some p.2
      · rw [if_pos hg] at hfp
        exact Option.noConfusion hfp
      · rw [if_neg hg] at hfp
        have heq := Option.some.inj hfp
        have hk : p.1 = k := congrArg Chg.key heq
        have hov : dget (keptOf old new) p.1 = none := congrArg Chg.oldValue heq
        have hv : p.2 = nv := Option.some.inj (congrArg Chg.newValue heq)
        have hnew : dget new k = some nv := by
          rw [← hk, ← hv]
          exact (dget_some_iff_mem new p.1 p.2 hnN).mpr hp
        refine ⟨?_, hnew⟩
        rw [hk] at hov
        rw [← keptOf_pass old new k (by simp [hnew])]
        exact hov
  · rintro ⟨hold, hnew⟩
    right
    refine ⟨(k, nv), (dget_some_iff_mem new k nv hnN).mp hnew, ?_⟩
    have hkept : dget (keptOf old new) k = none := by
      rw [keptOf_pass old new k (by simp [hnew])]
      exact hold
    rw [hkept]
    simp [mkChg]

/-- Update changes of the fresh diff: exactly the keys present in both maps
with unequal values. -/
theorem freshDiff_upd_iff (old new : List (K × V))
    (hnO : (old.map Prod.fst).Nodup) (hnN : (new.map Prod.fst).Nodup)
    (k : K) (ov nv : V) :
    mkChg k (some ov) (some nv) ∈ (freshDiff old new).1 ↔
      dget old k = some ov ∧ dget new k = some nv ∧ ov ≠ nv := by
  unfold freshDiff
  rw [upsertFold_changes new _ _ hnN]
  simp only [List.mem_append, List.mem_filterMap]
  constructor
  · rintro (hdel | ⟨p, hp, hfp⟩)
    · unfold delChanges at hdel
      simp only [List.mem_map, List.mem_filter] at hdel
      obtain ⟨p, -, heq⟩ := hdel
      exact Option.noConfusion (congrArg Chg.newValue heq)
    · by_cases hg : dget (keptOf old new) p.1 = some p.2
      · rw [if_pos hg] at hfp
        exact Option.noConfusion hfp
      · rw [if_neg hg] at hfp
        have heq := Option.some.inj hfp
        have hk : p.1 = k := congrArg Chg.key heq
        have hov : dget (keptOf old new) p.1 = some ov := congrArg Chg.oldValue heq
        have hv : p.2 = nv := Option.some.inj (congrArg Chg.newValue heq)
        have hnew : dget new k = some nv := by
          rw [← hk, ← hv]
          exact (dget_some_iff_mem new p.1 p.2 hnN).mpr hp
        have hold : dget old k = some ov := by
          rw [← keptOf_pass old new k (by simp [hnew]), ← hk]
          exact hov
        refine ⟨hold, hnew, ?_⟩
        intro e
        apply hg
        rw [hov, hv, e]
  · rintro ⟨hold, hnew, hne⟩
    right
    refine ⟨(k, nv), (dget_some_iff_mem new k nv hnN).mp hnew, ?_⟩
    have hkept : dget (keptOf old new) k = some ov := by
      rw [keptOf_pass old new k (by simp [hnew])]
      exact hold
    rw [hkept, if_neg (fun e => hne (Option.some.inj e))]

/-- The keys of a key-preserving filter-map form a sublist of the input's
keys. -/
theorem filterMap_keys_sublist (f : (K × V) → Option (Chg K V))
    (hf : ∀ p ch, f p = some ch → ch.key = p.1) (l : List (K × V)) :
    ((l.filterMap f).map Chg.key).Sublist (l.map Prod.fst) := by
  induction l with
  | nil => simp
  | cons p t ih =>
    rw [List.filterMap_cons]
    cases hfp : f p with
    | none =>
        simp only [List.map_cons]
        exact ih.cons p.1
    | some ch =>
        simp only [List.map_cons, hf p ch hfp]
        exact ih.cons₂ p.1

/-- Each key yields at most one change in the fresh diff. -/
theorem freshDiff_keys_nodup (old new : List (K × V))
    (hnO : (old.map Prod.fst).Nodup) (hnN : (new.map Prod.fst).Nodup) :
    ((freshDiff old new).1.map Chg.key).Nodup := by
  unfold freshDiff
  rw [upsertFold_changes new _ _ hnN, List.map_append]
  have hdelkeys : (delChanges old new).map Chg.key =
      (old.filter (fun p => (dget new p.1).isNone)).map Prod.fst := by
    unfold delChanges
    rw [List.map_map]
    rfl
  have hupsub : (((new.filterMap (fun p =>
      if dget (keptOf old new) p.1 = some p.2 then none
      else some (mkChg p.1 (dget (keptOf old new) p.1) (some p.2)))).map Chg.key)).Sublist
      (new.map Prod.fst) := by
    apply filterMap_keys_sublist
    intro p ch hfp
    by_cases hg : dget (keptOf old new) p.1 = some p.2
    · rw [if_pos hg] at hfp
      exact Option.noConfusion hfp
    · rw [if_neg hg] at hfp
      rw [← Option.some.inj hfp]
      rfl
  apply List.Nodup.append
  · rw [hdelkeys]
    exact List.Nodup.sublist ((List.filter_sublist old).map Prod.fst) hnO
  · exact List.Nodup.sublist hupsub hnN
  · intro a ha hb
    rw [hdelkeys] at ha
    simp only [List.mem_map, List.mem_filter] at ha
    obtain ⟨p, ⟨-, hpnone⟩, rfl⟩ := ha
    have hbnew : p.1 ∈ new.map Prod.fst := hupsub.subset hb
    have : (dget new p.1).isSome := (dget_isSome_iff_mem_keys new p.1).mpr hbnew
    simp only [Option.isNone_iff_eq_none] at hpnone
    rw [hpnone] at this
    exact Bool.noConfusion this

/-- `_compute` on a cache miss with a pure (non-writing, non-raising)
compute function: the compute function is invoked once, and the collected
changes and the stored contents are the fresh diff of the current contents
against the returned map. -/
theorem collComputeW_miss_pure (setter : St K V → String → K → V → St K V)
    (s : St K V) (id : String) (cf : CFun K V)
    (hcf : (collOf s id).cfun = some cf)
    (hw : cf.writes = []) (hf : cf.fails = false) (herr : s.err = none)
    (hmiss : dget (collOf s id).cache (cacheKeyFor s id) = none) :
    (collComputeW setter s id).1.computeLog = s.computeLog ++ [id] ∧
    (collComputeW setter s id).2 =
      some (freshDiff (collOf s id).data (cf.result (storeView s))).1 ∧
    (collOf (collComputeW setter s id).1 id).data =
      (freshDiff (collOf s id).data (cf.result (storeView s))).2 ∧
    (collComputeW setter s id).1.err = none := by
  have hcoll : (dget s.colls id).isSome := by
    cases hg : dget s.colls id with
    | some _ => simp
    | none =>
        rw [collOf, hg] at hcf
        exact Option.noConfusion hcf
  obtain ⟨cl, hcl⟩ := Option.isSome_iff_exists.mp hcoll
  unfold collComputeW
  simp only [hcf, hmiss]
  unfold freshCompute runCFun
  simp only [hw, List.foldl_nil, herr, hf, Option.isSome_none, Bool.false_eq_true,
    if_false, ite_false]
  refine ⟨?_, rfl, ?_, ?_⟩
  · simp [updateColl]
  · simp [updateColl, collOf, dget_dmodify_self, hcl]
    rfl
  · simp [updateColl]

/-! ### Reentrancy: behaviour of the engine while the flag is set -/

/-- `recompute_invalidated` returns immediately while a coordinated update is
in progress: a write from inside the update never starts a second
traversal. -/
theorem recomputeF_flag (n : Nat) (s : St K V) (i : String)
    (h : s.flag = true) : recomputeF n s i = s := by
  cases n with
  | zero => rfl
  | succ n => simp [recomputeF, h]

theorem obsFold_flag (n : Nat) (obs : List String) (s : St K V)
    (h : s.flag = true) :
    obs.foldl (fun s o => if s.err.isSome then s else recomputeF n s o) s = s := by
  induction obs with
  | nil => rfl
  | cons o t ih =>
    simp only [List.foldl_cons]
    by_cases he : s.err.isSome
    · rw [if_pos he]
      exact ih
    · rw [if_neg he, recomputeF_flag n s o h]
      exact ih

/-- A `set` performed during a coordinated update: the nested recompute
returns at once, so only the store, clock and callback log change. -/
theorem pySetW_inner (n : Nat) (s : St K V) (c : String) (k : K) (v : V)
    (h : s.flag = true) :
    (pySetW (fun st o => recomputeF n st o) s c k v).flag = true ∧
    (pySetW (fun st o => recomputeF n st o) s c k v).nodes = s.nodes ∧
    (pySetW (fun st o => recomputeF n st o) s c k v).inProgress = s.inProgress ∧
    (pySetW (fun st o => recomputeF n st o) s c k v).computeLog = s.computeLog ∧
    (pySetW (fun st o => recomputeF n st o) s c k v).err = s.err := by
  unfold pySetW
  simp only [tickSt, updateColl]
  rw [obsFold_flag n _ _ (by simpa using h)]
  by_cases he : s.err.isSome <;> simp [he, h]

/-- A sequence of induced writes during a coordinated update. -/
theorem writesFold_inner (n : Nat) (ws : List (String × K × V)) :
    ∀ (s : St K V), s.flag = true →
    ((ws.foldl (fun s w => if s.err.isSome then s
        else pySetW (fun st o => recomputeF n st o) s w.1 w.2.1 w.2.2) s).flag = true ∧
     (ws.foldl (fun s w => if s.err.isSome then s
        else pySetW (fun st o => recomputeF n st o) s w.1 w.2.1 w.2.2) s).nodes = s.nodes ∧
     (ws.foldl (fun s w => if s.err.isSome then s
        else pySetW (fun st o => recomputeF n st o) s w.1 w.2.1 w.2.2) s).inProgress = s.inProgress ∧
     (ws.foldl (fun s w => if s.err.isSome then s
        else pySetW (fun st o => recomputeF n st o) s w.1 w.2.1 w.2.2) s).computeLog = s.computeLog ∧
     (ws.foldl (fun s w => if s.err.isSome then s
        else pySetW (fun st o => recomputeF n st o) s w.1 w.2.1 w.2.2) s).err = s.err) := by
  induction ws with
  | nil => intro s h; exact ⟨h, rfl, rfl, rfl, rfl⟩
  | cons w t ih =>
    intro s h
    simp only [List.foldl_cons]
    by_cases he : s.err.isSome
    · rw [if_pos he]
      exact ih s h
    · rw [if_neg he]
      obtain ⟨h1, h2, h3, h4, h5⟩ := pySetW_inner n s w.1 w.2.1 w.2.2 h
      obtain ⟨g1, g2, g3, g4, g5⟩ := ih _ h1
      exact ⟨g1, g2.trans h2, g3.trans h3, g4.trans h4, g5.trans h5⟩

/-- `_compute` during a coordinated update: the graph nodes, the
in-progress set and the flag are untouched, and the compute-invocation log
grows by at most the node's own id. -/
theorem collComputeW_inner (n : Nat) (s : St K V) (id : String)
    (h : s.flag = true) :
    ((collComputeW (pySetW (fun st o => recomputeF n st o)) s id).1.flag = true ∧
     (collComputeW (pySetW (fun st o => recomputeF n st o)) s id).1.nodes = s.nodes ∧
     (collComputeW (pySetW (fun st o => recomputeF n st o)) s id).1.inProgress = s.inProgress) ∧
    (∃ d, (collComputeW (pySetW (fun st o => recomputeF n st o)) s id).1.computeLog =
      s.computeLog ++ d ∧ d.Sublist [id]) := by
  unfold collComputeW
  dsimp only
  cases hcf : (collOf s id).cfun with
  | none =>
      simp only [hcf]
      exact ⟨⟨h, by simp, by simp⟩, [], by simp, List.nil_sublist _⟩
  | some cf =>
      simp only [hcf]
      have hfreshBody : ∀ (s' : St K V), s'.flag = true → s'.colls = s.colls →
          s'.inProgress = s.inProgress → s'.nodes = s.nodes →
          s'.computeLog = s.computeLog →
          ((freshCompute (pySetW (fun st o => recomputeF n st o)) s' id cf
              (cacheKeyFor s id)).1.flag = true ∧
           (freshCompute (pySetW (fun st o => recomputeF n st o)) s' id cf
              (cacheKeyFor s id)).1.nodes = s.nodes ∧
           (freshCompute (pySetW (fun st o => recomputeF n st o)) s' id cf
              (cacheKeyFor s id)).1.inProgress = s.inProgress) ∧
          (∃ d, (freshCompute (pySetW (fun st o => recomputeF n st o)) s' id cf
              (cacheKeyFor s id)).1.computeLog = s.computeLog ++ d ∧ d.Sublist [id]) := by
        intro s' hfl hco hip hnd hcl
        unfold freshCompute runCFun
        dsimp only
        obtain ⟨w1, w2, w3, w4, w5⟩ := writesFold_inner n cf.writes
          ({ s' with computeLog := s'.computeLog ++ [id] } : St K V) (by simpa using hfl)
        by_cases he : (cf.writes.foldl (fun s w => if s.err.isSome then s
            else pySetW (fun st o => recomputeF n st o) s w.1 w.2.1 w.2.2)
            ({ s' with computeLog := s'.computeLog ++ [id] } : St K V)).err.isSome
        · rw [if_pos he]
          refine ⟨⟨w1, ?_, ?_⟩, [id], ?_, List.Sublist.refl _⟩
          · rw [w2]; exact hnd
          · rw [w3]; exact hip
          · rw [w4]; simp [hcl]
        · rw [if_neg he]
          by_cases hfail : cf.fails
          · rw [if_pos hfail]
            refine ⟨⟨w1, ?_, ?_⟩, [id], ?_, List.Sublist.refl _⟩
            · rw [w2]; exact hnd
            · rw [w3]; exact hip
            · rw [w4]; simp [hcl]
          · rw [if_neg hfail]
            dsimp only
            refine ⟨⟨w1, ?_, ?_⟩, [id], ?_, List.Sublist.refl _⟩
            · simp only [updateColl]
              rw [w2]; exact hnd
            · simp only [updateColl]
              rw [w3]; exact hip
            · simp only [updateColl]
              rw [w4]; simp [hcl]
      cases hc : dget (collOf s id).cache (cacheKeyFor s id) with
      | some cr =>
          simp only [hc, tickSt]
          by_cases hfresh : s.clock - cr.computedAt < cacheTimeoutMicros
          · rw [if_pos hfresh]
            exact ⟨⟨h, rfl, rfl⟩, [], by simp [updateColl], List.nil_sublist _⟩
          · rw [if_neg hfresh]
            exact hfreshBody _ h rfl rfl rfl rfl
      | none =>
          simp only [hc]
          exact hfreshBody _ h rfl rfl rfl rfl

/-- `_compute_single_node` during a coordinated update: only the node's own
graph entry can change, the in-progress set is restored, the flag stays set,
and the compute log grows by at most the node's id; when the compute raises,
the graph entries are untouched entirely. -/
theorem computeSingleNodeW_inner (n : Nat) (s : St K V) (id : String)
    (h : s.flag = true) :
    (computeSingleNodeW (pySetW (fun st o => recomputeF n st o)) s id).1.flag = true ∧
    (∀ x, x ≠ id →
      dget (computeSingleNodeW (pySetW (fun st o => recomputeF n st o)) s id).1.nodes x =
        dget s.nodes x) ∧
    (computeSingleNodeW (pySetW (fun st o => recomputeF n st o)) s id).1.inProgress =
      s.inProgress ∧
    (∃ d, (computeSingleNodeW (pySetW (fun st o => recomputeF n st o)) s id).1.computeLog =
      s.computeLog ++ d ∧ d.Sublist [id]) ∧
    ((computeSingleNodeW (pySetW (fun st o => recomputeF n st o)) s id).1.err.isSome →
      (computeSingleNodeW (pySetW (fun st o => recomputeF n st o)) s id).1.nodes = s.nodes) := by
  unfold computeSingleNodeW
  dsimp only
  by_cases hip : id ∈ s.inProgress
  · rw [if_pos hip]
    exact ⟨h, fun x _ => rfl, rfl, ⟨[], by simp, List.nil_sublist _⟩, fun _ => rfl⟩
  · rw [if_neg hip]
    obtain ⟨⟨c1, c2, c3⟩, d, c4, c5⟩ := collComputeW_inner n
      ({ s with inProgress := s.inProgress ++ [id] } : St K V) id (by simpa using h)
    have hfilter : (collComputeW (pySetW (fun st o => recomputeF n st o))
        ({ s with inProgress := s.inProgress ++ [id] } : St K V) id).1.inProgress.filter
          (fun x => ¬ x = id) = s.inProgress := by
      rw [c3]
      show (s.inProgress ++ [id]).filter (fun x => decide ¬ x = id) = s.inProgress
      rw [List.filter_append]
      have h2 : [id].filter (fun x => decide ¬ x = id) = [] := by simp
      have h1 : s.inProgress.filter (fun x => decide ¬ x = id) = s.inProgress :=
        List.filter_eq_self.mpr (fun x hx => by
          simp only [decide_eq_true_eq]
          exact fun e => hip (e ▸ hx))
      rw [h1, h2, List.append_nil]
    by_cases herr2 : (collComputeW (pySetW (fun st o => recomputeF n st o))
        ({ s with inProgress := s.inProgress ++ [id] } : St K V) id).1.err.isSome
    · rw [if_pos herr2]
      refine ⟨c1, ?_, by simpa using hfilter, ⟨d, by simpa using c4, c5⟩, fun _ => ?_⟩
      · intro x _
        simp only [c2]
      · simp only [c2]
    · rw [if_neg herr2]
      simp only [tickSt, updateNode]
      refine ⟨c1, ?_, by simpa using hfilter, ⟨d, by simpa using c4, c5⟩, ?_⟩
      · intro x hx
        rw [dget_dmodify_ne _ _ _ _ (Ne.symm hx)]
        simp only [c2]
      · intro habs
        exact absurd habs (by simpa using herr2)

/-- The compute loop during a pass that ends in an exception: the loop stops
at the failing node `fid`; the graph entries of `fid` and every node after
it are untouched (so they remain invalidated), `fid` is still flagged
invalidated, and the collected (undispatched) diffs all belong to nodes
strictly before `fid`. -/
theorem computeLoopW_fail (n : Nat) :
    ∀ (l : List String) (s : St K V) (acc : List (String × List (Chg K V))),
      s.flag = true → s.err = none → l.Nodup →
      (computeLoopW (pySetW (fun st o => recomputeF n st o)) s l acc).1.err.isSome →
      ∃ pre fid post,
        l = pre ++ fid :: post ∧
        (∀ x, x ∉ pre →
          dget (computeLoopW (pySetW (fun st o => recomputeF n st o)) s l acc).1.nodes x =
            dget s.nodes x) ∧
        (nodeOf (computeLoopW (pySetW (fun st o => recomputeF n st o)) s l acc).1
          fid).invalidated = true ∧
        (∀ entry ∈ (computeLoopW (pySetW (fun st o => recomputeF n st o)) s l acc).2,
          entry ∈ acc ∨ entry.1 ∈ pre) ∧
        (computeLoopW (pySetW (fun st o => recomputeF n st o)) s l acc).1.flag = true := by
  intro l
  induction l with
  | nil =>
      intro s acc hflag herr _ hfail
      simp only [computeLoopW] at hfail
      rw [herr] at hfail
      exact absurd hfail (by simp)
  | cons id rest ih =>
      intro s acc hflag herr hnodup hfail
      simp only [List.nodup_cons] at hnodup
      obtain ⟨c1, c2, c3, ⟨d, c4, c5⟩, c6⟩ := computeSingleNodeW_inner n s id hflag
      by_cases hinv : (nodeOf s id).invalidated
      · simp only [computeLoopW, if_pos hinv] at hfail ⊢
        by_cases herr2 : (computeSingleNodeW (pySetW (fun st o => recomputeF n st o))
            s id).1.err.isSome
        · rw [if_pos herr2] at hfail ⊢
          have hnodes := c6 herr2
          refine ⟨[], id, rest, rfl, ?_, ?_, fun entry he => Or.inl he, c1⟩
          · intro x _
            rw [hnodes]
          · rw [nodeOf, hnodes, ← nodeOf]
            exact hinv
        · rw [if_neg herr2] at hfail ⊢
          have herr3 : (computeSingleNodeW (pySetW (fun st o => recomputeF n st o))
              s id).1.err = none := by
            cases hg : (computeSingleNodeW (pySetW (fun st o => recomputeF n st o))
                s id).1.err with
            | none => rfl
            | some _ => rw [hg] at herr2; simp at herr2
          obtain ⟨pre, fid, post, heq, hnodes, hinvf, hacc, hfl⟩ :=
            ih _ _ c1 herr3 hnodup.2 hfail
          refine ⟨id :: pre, fid, post, by rw [heq, List.cons_append], ?_, hinvf, ?_, hfl⟩
          · intro x hx
            simp only [List.mem_cons, not_or] at hx
            rw [hnodes x hx.2, c2 x hx.1]
          · intro entry he
            rcases hacc entry he with hin | hin
            · have : entry ∈ acc ∨ entry.1 = id := by
                rcases hr2 : (computeSingleNodeW (pySetW (fun st o => recomputeF n st o))
                    s id).2 with - | chs
                · simp only [hr2] at hin
                  exact Or.inl hin
                · simp only [hr2] at hin
                  by_cases hc : chs = []
                  · rw [if_pos hc] at hin
                    exact Or.inl hin
                  · rw [if_neg hc] at hin
                    rcases List.mem_append.mp hin with h' | h'
                    · exact Or.inl h'
                    · exact Or.inr (by rw [List.mem_singleton.mp h'])
              rcases this with h' | h'
              · exact Or.inl h'
              · exact Or.inr (by rw [h']; exact List.mem_cons_self id pre)
            · exact Or.inr (List.mem_cons_of_mem id hin)
      · simp only [computeLoopW, if_neg hinv] at hfail ⊢
        obtain ⟨pre, fid, post, heq, hnodes, hinvf, hacc, hfl⟩ :=
          ih _ _ hflag herr hnodup.2 hfail
        refine ⟨id :: pre, fid, post, by rw [heq, List.cons_append], ?_, hinvf, ?_, hfl⟩
        · intro x hx
          simp only [List.mem_cons, not_or] at hx
          exact hnodes x hx.2
        · intro entry he
          rcases hacc entry he with hin | hin
          · exact Or.inl hin
          · exact Or.inr (List.mem_cons_of_mem id hin)

/-- The DFS visit only appends: fresh elements are known nodes not on the
temp stack, and the result stays duplicate-free. -/
theorem visitF_props (g : List (String × NodeR)) :
    ∀ (fuel : Nat) (temp res : List String) (id : String),
      ∃ d, visitF g fuel temp res id = res ++ d ∧
        (∀ x ∈ d, x ∉ temp ∧ (dget g x).isSome) ∧
        (res.Nodup → (res ++ d).Nodup) := by
  intro fuel
  induction fuel with
  | zero =>
      intro temp res id
      exact ⟨[], by simp [visitF], by simp, fun h => by simpa using h⟩
  | succ n ih =>
      intro temp res id
      by_cases h1 : id ∈ temp
      · refine ⟨[], ?_, by simp, fun h => by simpa using h⟩
        simp [visitF, h1]
      · by_cases h2 : id ∉ res ∧ (dget g id).isSome
        · have hfold : ∀ (ds : List String) (res : List String),
              ∃ d, ds.foldl (fun r dd => visitF g n (id :: temp) r dd) res = res ++ d ∧
                (∀ x ∈ d, x ∉ id :: temp ∧ (dget g x).isSome) ∧
                (res.Nodup → (res ++ d).Nodup) := by
            intro ds
            induction ds with
            | nil =>
                intro res
                exact ⟨[], by simp, by simp, fun h => by simpa using h⟩
            | cons dd t iht =>
                intro res
                simp only [List.foldl_cons]
                obtain ⟨d1, e1, p1, n1⟩ := ih (id :: temp) res dd
                obtain ⟨d2, e2, p2, n2⟩ := iht (res ++ d1)
                refine ⟨d1 ++ d2, ?_, ?_, ?_⟩
                · rw [e1, e2, List.append_assoc]
                · intro x hx
                  rcases List.mem_append.mp hx with hx | hx
                  · exact p1 x hx
                  · exact p2 x hx
                · intro h
                  rw [← List.append_assoc]
                  exact n2 (n1 h)
          obtain ⟨d1, e1, p1, n1⟩ := hfold (((dget g id).getD default).dependencies) res
          refine ⟨d1 ++ [id], ?_, ?_, ?_⟩
          · simp only [visitF]
            rw [if_neg h1, if_pos h2, e1, List.append_assoc]
          · intro x hx
            rcases List.mem_append.mp hx with hx | hx
            · obtain ⟨ha, hb⟩ := p1 x hx
              exact ⟨fun hm => ha (List.mem_cons_of_mem id hm), hb⟩
            · rw [List.mem_singleton.mp hx]
              exact ⟨h1, h2.2⟩
          · intro h
            rw [← List.append_assoc]
            refine List.Nodup.append (n1 h) (List.nodup_singleton id) ?_
            intro a ha hb
            rw [List.mem_singleton.mp hb] at ha
            rcases List.mem_append.mp ha with ha | ha
            · exact h2.1 ha
            · exact (p1 id ha).1 (List.mem_cons_self id temp)
        · refine ⟨[], ?_, by simp, fun h => by simpa using h⟩
          simp only [visitF]
          rw [if_neg h1, if_neg h2]
          simp

/-- The topological sort emits each node at most once, and only known
nodes. -/
theorem topoSortG_props (g : List (String × NodeR)) (ids : List String) :
    (topoSortG g ids).Nodup ∧ (∀ x ∈ topoSortG g ids, (dget g x).isSome) := by
  unfold topoSortG
  suffices h : ∀ (ids : List String) (res : List String), res.Nodup →
      (∀ x ∈ res, (dget g x).isSome) →
      (ids.foldl (fun res id => visitF g (g.length + 1) [] res id) res).Nodup ∧
      (∀ x ∈ ids.foldl (fun res id => visitF g (g.length + 1) [] res id) res,
        (dget g x).isSome) by
    exact h ids [] (by simp) (by simp)
  intro ids
  induction ids with
  | nil => intro res h1 h2; exact ⟨h1, h2⟩
  | cons id t iht =>
      intro res h1 h2
      simp only [List.foldl_cons]
      obtain ⟨d, e, p, nn⟩ := visitF_props g (g.length + 1) [] res id
      apply iht
      · rw [e]; exact nn h1
      · rw [e]
        intro x hx
        rcases List.mem_append.mp hx with hx | hx
        · exact h2 x hx
        · exact (p x hx).2

/-- Invalidation only toggles `invalidated` flags: every other component of
the state is untouched. -/
theorem invalidateF_pres : ∀ (fuel : Nat) (s : St K V) (i : String),
    ((invalidateF () fuel s i).1.flag = s.flag) ∧
    ((invalidateF () fuel s i).1.err = s.err) ∧
    ((invalidateF () fuel s i).1.colls = s.colls) ∧
    ((invalidateF () fuel s i).1.log = s.log) ∧
    ((invalidateF () fuel s i).1.computeLog = s.computeLog) ∧
    ((invalidateF () fuel s i).1.inProgress = s.inProgress) ∧
    ((invalidateF () fuel s i).1.nodes.map Prod.fst = s.nodes.map Prod.fst) := by
  intro fuel
  induction fuel with
  | zero => intro s i; exact ⟨rfl, rfl, rfl, rfl, rfl, rfl, rfl⟩
  | succ n ih =>
      intro s i
      have hmod : ∀ (s : St K V) (i : String) (f : NodeR → NodeR),
          (updateNode s i f).nodes.map Prod.fst = s.nodes.map Prod.fst := by
        intro s i f
        unfold updateNode
        generalize s.nodes = l
        induction l with
        | nil => rfl
        | cons p t ihl =>
            obtain ⟨a, b⟩ := p
            by_cases hp : a = i
            · simp [dmodify, hp]
            · simp [dmodify, hp, ihl]
      have hfold : ∀ (ds : List String) (p : St K V × List String),
          (((ds.foldl (fun acc d =>
              ((invalidateF () n acc.1 d).1, acc.2 ++ (invalidateF () n acc.1 d).2)) p)).1.flag
            = p.1.flag) ∧
          ((ds.foldl (fun acc d =>
              ((invalidateF () n acc.1 d).1, acc.2 ++ (invalidateF () n acc.1 d).2)) p).1.err
            = p.1.err) ∧
          ((ds.foldl (fun acc d =>
              ((invalidateF () n acc.1 d).1, acc.2 ++ (invalidateF () n acc.1 d).2)) p).1.colls
            = p.1.colls) ∧
          ((ds.foldl (fun acc d =>
              ((invalidateF () n acc.1 d).1, acc.2 ++ (invalidateF () n acc.1 d).2)) p).1.log
            = p.1.log) ∧
          ((ds.foldl (fun acc d =>
              ((invalidateF () n acc.1 d).1, acc.2 ++ (invalidateF () n acc.1 d).2)) p).1.computeLog
            = p.1.computeLog) ∧
          ((ds.foldl (fun acc d =>
              ((invalidateF () n acc.1 d).1, acc.2 ++ (invalidateF () n acc.1 d).2)) p).1.inProgress
            = p.1.inProgress) ∧
          ((ds.foldl (fun acc d =>
              ((invalidateF () n acc.1 d).1, acc.2 ++ (invalidateF () n acc.1 d).2)) p).1.nodes.map
              Prod.fst = p.1.nodes.map Prod.fst) := by
        intro ds
        induction ds with
        | nil => intro p; exact ⟨rfl, rfl, rfl, rfl, rfl, rfl, rfl⟩
        | cons dd t iht =>
            intro p
            simp only [List.foldl_cons]
            obtain ⟨e1, e2, e3, e4, e5, e6, e7⟩ := ih p.1 dd
            obtain ⟨f1, f2, f3, f4, f5, f6, f7⟩ :=
              iht ((invalidateF () n p.1 dd).1, p.2 ++ (invalidateF () n p.1 dd).2)
            exact ⟨f1.trans e1, f2.trans e2, f3.trans e3, f4.trans e4, f5.trans e5,
              f6.trans e6, f7.trans e7⟩
      simp only [invalidateF]
      cases hg : dget s.nodes i with
      | none => exact ⟨rfl, rfl, rfl, rfl, rfl, rfl, rfl⟩
      | some nd =>
          by_cases hinv : nd.invalidated
          · simp [hinv]
          · simp only [hinv, Bool.false_eq_true, if_false]
            obtain ⟨f1, f2, f3, f4, f5, f6, f7⟩ := hfold nd.dependents
              (updateNode s i (fun nd => { nd with invalidated := true }), [i])
            refine ⟨f1.trans rfl, f2.trans rfl, f3.trans rfl, f4.trans rfl,
              f5.trans rfl, f6.trans rfl, f7.trans (hmod s i _)⟩

/-! ### The stages of one coordinated pass, named -/

/-- The invalidation stage of `recompute_invalidated` (flag set, then the
start node and its transitive dependents marked). -/
def passInvState (s : St K V) (start : String) : St K V × List String :=
  invalidateF () (({ s with flag := true } : St K V).nodes.length + 1)
    { s with flag := true } start

/-- The topological sort stage of `recompute_invalidated`. -/
def passSorted (s : St K V) (start : String) : List String :=
  topoSortG (passInvState s start).1.nodes (passInvState s start).2

/-- The compute-loop stage of `recompute_invalidated`. -/
def passLoop (n : Nat) (s : St K V) (start : String) :
    St K V × List (String × List (Chg K V)) :=
  computeLoopW (pySetW (fun st o => recomputeF n st o)) (passInvState s start).1
    (passSorted s start) []

/-- `recompute_invalidated`, written with its stages named: when no update
is in flight, run the pass; dispatch only when no compute raised; clear the
flag either way. -/
theorem recomputeF_succ_eq (n : Nat) (s : St K V) (start : String)
    (hflag : s.flag = false) :
    recomputeF (n + 1) s start =
      if (passLoop n s start).1.err.isSome then
        { (passLoop n s start).1 with flag := false }
      else
        { dispatchLoopSt (passLoop n s start).1 (passSorted s start)
            (passLoop n s start).2 with flag := false } := by
  simp only [recomputeF, hflag, Bool.false_eq_true, if_false]
  rfl

/-- The compute loop extends the compute-invocation log by a sublist of the
nodes it walks. -/
theorem computeLoopW_computeLog (n : Nat) :
    ∀ (l : List String) (s : St K V) (acc : List (String × List (Chg K V))),
      s.flag = true →
      ∃ d, (computeLoopW (pySetW (fun st o => recomputeF n st o)) s l acc).1.computeLog =
          s.computeLog ++ d ∧ d.Sublist l := by
  intro l
  induction l with
  | nil =>
      intro s acc _
      exact ⟨[], by simp [computeLoopW], List.nil_sublist _⟩
  | cons id rest ih =>
      intro s acc hflag
      obtain ⟨c1, -, -, ⟨d1, c4, c5⟩, -⟩ := computeSingleNodeW_inner n s id hflag
      by_cases hinv : (nodeOf s id).invalidated
      · simp only [computeLoopW, if_pos hinv]
        by_cases herr2 : (computeSingleNodeW (pySetW (fun st o => recomputeF n st o))
            s id).1.err.isSome
        · rw [if_pos herr2]
          exact ⟨d1, c4, c5.trans ((List.nil_sublist rest).cons₂ id)⟩
        · rw [if_neg herr2]
          obtain ⟨d2, e2, s2⟩ := ih _ _ c1
          refine ⟨d1 ++ d2, ?_, ?_⟩
          · rw [e2, c4, List.append_assoc]
          · exact List.Sublist.append c5 s2
      · simp only [computeLoopW, if_neg hinv]
        obtain ⟨d2, e2, s2⟩ := ih _ _ hflag
        exact ⟨d2, e2, s2.trans (List.sublist_cons_self id rest)⟩

/-- The dispatch loop only appends to the callback log. -/
theorem dispatchLoopSt_pres (sorted : List String)
    (acc : List (String × List (Chg K V))) :
    ∀ (s : St K V),
      (dispatchLoopSt s sorted acc).computeLog = s.computeLog ∧
      (dispatchLoopSt s sorted acc).nodes = s.nodes ∧
      (dispatchLoopSt s sorted acc).err = s.err ∧
      (dispatchLoopSt s sorted acc).colls = s.colls := by
  unfold dispatchLoopSt
  induction sorted with
  | nil => intro s; exact ⟨rfl, rfl, rfl, rfl⟩
  | cons id rest ih =>
      intro s
      simp only [List.foldl_cons]
      cases hg : dget acc id with
      | none =>
          simpa only [hg] using ih s
      | some chs =>
          simp only [hg]
          obtain ⟨e1, e2, e3, e4⟩ := ih { s with log := s.log ++ chs.map (fun c => (id, c)) }
          exact ⟨e1, e2, e3, e4⟩

end EngineLemmas

/-! ## Concrete engine instances for the counterexamples -/

/-- A compute function copying base collection `"B"` verbatim. -/
def cfIdent : CFun Nat Int := { result := fun v => v "B" }

/-- A compute function doubling the values of collection `"C"`. -/
def cfDouble : CFun Nat Int :=
  { result := fun v => (v "C").map (fun p => (p.1, 2 * p.2)) }

/-- A three-collection chain `B → C → D`: `B` is a base collection, `C`
copies `B`, `D` doubles `C`.  Collections were constructed at instants 1-3,
the clock stands at 4. -/
def exCacheSt : St Nat Int :=
  { nodes := [("B", ⟨[], ["C"], false, none⟩),
              ("C", ⟨["B"], ["D"], false, none⟩),
              ("D", ⟨["C"], [], false, none⟩)],
    colls := [("B", ⟨[], 1, [], none⟩),
              ("C", ⟨[], 2, [], some cfIdent⟩),
              ("D", ⟨[], 3, [], some cfDouble⟩)],
    clock := 4 }

/-! ## Claims -/

/-! ### C1 — recomputation diff of a derived collection -/

/-- C1, counterexample.  In the chain `B → C → D`, write `B[0]=1` and then
`B[0]=2`.  The second coordinated update recomputes `D` (its
`last_computed` is stamped with the later instant `10`) **without invoking
its compute function** (the compute-invocation log is `["C","D","C"]`: `D`'s
function ran only in the first pass): `D`'s cache key — built from `C`'s
`_last_modified`, which a computed collection never updates — is unchanged,
so the fresh cached entry from the first pass is replayed.  Afterwards `D`'s
stored contents are `{0: 2}` although its compute function returns `{0: 4}`
on the current inputs, so the emitted changes are not the claimed diff and
the contents do not equal the new mapping. -/
theorem C1_counterexample :
    (pySet (pySet exCacheSt "B" 0 1) "B" 0 2).computeLog = ["C", "D", "C"] ∧
    (collOf (pySet (pySet exCacheSt "B" 0 1) "B" 0 2) "C").data = [(0, 2)] ∧
    (collOf (pySet (pySet exCacheSt "B" 0 1) "B" 0 2) "D").data = [(0, 2)] ∧
    cfDouble.result (storeView (pySet (pySet exCacheSt "B" 0 1) "B" 0 2)) = [(0, 4)] ∧
    (nodeOf (pySet (pySet exCacheSt "B" 0 1) "B" 0 2) "D").lastComputed = some 10 ∧
    (pySet (pySet exCacheSt "B" 0 1) "B" 0 2).err = none := by
  exact ⟨rfl, rfl, rfl, rfl, rfl, rfl⟩

/-- C1, amended: when the engine recomputes a derived collection during a
coordinated update **and no fresh cached result exists for the current
dependency-fingerprint cache key**, the compute function is invoked to
produce the new full contents, and the emitted changes are exactly: a
deletion change for every key in the old contents but not in the new
mapping, an insertion change for every key in the new mapping but not in
the old contents, and an update change for every key present in both whose
old and new values are unequal; keys with equal values produce no change
(and each key yields at most one change), and afterwards the collection's
stored contents equal the new mapping.  (When a fresh cached entry exists,
the compute function is *not* invoked and the cached changes are replayed
instead — see the counterexample.) -/
theorem C1_amended (setter : St Nat Int → String → Nat → Int → St Nat Int)
    (s : St Nat Int) (id : String) (cf : CFun Nat Int)
    (old new : List (Nat × Int))
    (hcf : (collOf s id).cfun = some cf)
    (hw : cf.writes = []) (hf : cf.fails = false) (herr : s.err = none)
    (hmiss : dget (collOf s id).cache (cacheKeyFor s id) = none)
    (hold : old = (collOf s id).data) (hnew : new = cf.result (storeView s))
    (hnO : (old.map Prod.fst).Nodup) (hnN : (new.map Prod.fst).Nodup) :
    (collComputeW setter s id).1.computeLog = s.computeLog ++ [id] ∧
    (collComputeW setter s id).2 = some (freshDiff old new).1 ∧
    (collOf (collComputeW setter s id).1 id).data = (freshDiff old new).2 ∧
    (∀ k, dget (freshDiff old new).2 k = dget new k) ∧
    (∀ k ov, mkChg k (some ov) none ∈ (freshDiff old new).1 ↔
      dget old k = some ov ∧ dget new k = none) ∧
    (∀ k nv, mkChg k none (some nv) ∈ (freshDiff old new).1 ↔
      dget old k = none ∧ dget new k = some nv) ∧
    (∀ k ov nv, mkChg k (some ov) (some nv) ∈ (freshDiff old new).1 ↔
      dget old k = some ov ∧ dget new k = some nv ∧ ov ≠ nv) ∧
    (∀ ch ∈ (freshDiff old new).1, ch.oldValue ≠ ch.newValue) ∧
    ((freshDiff old new).1.map Chg.key).Nodup := by
  subst hold hnew
  obtain ⟨h1, h2, h3, -⟩ := collComputeW_miss_pure setter s id cf hcf hw hf herr hmiss
  exact ⟨h1, h2, h3,
    freshDiff_data_dget _ _ hnN,
    fun k ov => freshDiff_del_iff _ _ hnO hnN k ov,
    fun k nv => freshDiff_ins_iff _ _ hnO hnN k nv,
    fun k ov nv => freshDiff_upd_iff _ _ hnO hnN k ov nv,
    freshDiff_changes_ne _ _,
    freshDiff_keys_nodup _ _ hnO hnN⟩

/-- C1, witness for the amended theorem at a concrete input. -/
theorem C1_amended_witness :
    (collComputeW (fun st _ _ _ => st) exCacheSt "C").1.computeLog =
      exCacheSt.computeLog ++ ["C"] :=
  (C1_amended (fun st _ _ _ => st) exCacheSt "C" cfIdent [] []
    rfl rfl rfl rfl rfl rfl rfl (by decide) (by decide)).1

/-! ### C2 — failure semantics of a coordinated update -/

/-- A compute function copying base collection `"A"` verbatim. -/
def cfCopyA : CFun Nat Int := { result := fun v => v "A" }

/-- A compute function that raises. -/
def cfBoom : CFun Nat Int := { fails := true, result := fun _ => [] }

/-- A chain `A → N1 → N2` where `N2`'s compute function raises. -/
def exFailSt : St Nat Int :=
  { nodes := [("A", ⟨[], ["N1"], false, none⟩),
              ("N1", ⟨["A"], ["N2"], false, none⟩),
              ("N2", ⟨["N1"], [], false, none⟩)],
    colls := [("A", ⟨[], 1, [], none⟩),
              ("N1", ⟨[], 2, [], some cfCopyA⟩),
              ("N2", ⟨[], 3, [], some cfBoom⟩)],
    clock := 4 }

/-- C2, counterexample.  Writing `A[0]=7` recomputes `N1` (committed, marked
valid) and then `N2`'s compute raises: the error is reported to the caller
and `N2` stays invalidated with no partial diff — but **no change callback
at all is dispatched** (the dispatch log is empty), although the claim says
the changes of `N1` (recomputed before the failure) are still dispatched.
The notification phase of `recompute_invalidated` runs only after the whole
compute loop finishes without raising. -/
theorem C2_counterexample :
    (pySet exFailSt "A" 0 7).err = some PyErr.computeError ∧
    (pySet exFailSt "A" 0 7).log = [] ∧
    (collOf (pySet exFailSt "A" 0 7) "N1").data = [(0, 7)] ∧
    (nodeOf (pySet exFailSt "A" 0 7) "N1").invalidated = false ∧
    (nodeOf (pySet exFailSt "A" 0 7) "N2").invalidated = true ∧
    (collOf (pySet exFailSt "A" 0 7) "N2").data = [] ∧
    (pySet exFailSt "A" 0 7).flag = false := by
  exact ⟨rfl, rfl, rfl, rfl, rfl, rfl, rfl⟩

/-- C2, amended: if a compute function raises during a coordinated update,
the update aborts and the failure is reported to the caller of recompute;
every node recomputed before the failing node keeps its new contents, every
node not yet reached (and the failing node itself) keeps its
post-invalidation graph entry — so it remains invalidated — and no diff is
collected for the failing node; but the changes of the nodes recomputed
before the failure are **not** dispatched: the dispatch phase runs only when
every node recomputed without error, so the collected diffs (all belonging
to nodes strictly before the failing one) are dropped and the callback log
is exactly what the compute loop itself produced. -/
theorem C2_amended (n : Nat) (s : St Nat Int) (start : String)
    (hflag : s.flag = false) (herr : s.err = none)
    (hfail : (passLoop n s start).1.err.isSome) :
    recomputeF (n + 1) s start = { (passLoop n s start).1 with flag := false } ∧
    (recomputeF (n + 1) s start).log = (passLoop n s start).1.log ∧
    (recomputeF (n + 1) s start).err = (passLoop n s start).1.err ∧
    ∃ pre fid post,
      passSorted s start = pre ++ fid :: post ∧
      fid ∉ pre ∧
      (∀ x, x ∉ pre →
        dget (passLoop n s start).1.nodes x = dget (passInvState s start).1.nodes x) ∧
      (nodeOf (passLoop n s start).1 fid).invalidated = true ∧
      (∀ entry ∈ (passLoop n s start).2, entry.1 ∈ pre) := by
  have heq := recomputeF_succ_eq n s start hflag
  rw [if_pos hfail] at heq
  have hpflag : (passInvState s start).1.flag = true := by
    unfold passInvState
    rw [(invalidateF_pres _ _ _).1]
  have hperr : (passInvState s start).1.err = none := by
    unfold passInvState
    rw [(invalidateF_pres _ _ _).2.1]
    exact herr
  have hnodupS : (passSorted s start).Nodup := (topoSortG_props _ _).1
  obtain ⟨pre, fid, post, hsplit, hnodes, hinvf, hacc, -⟩ :=
    computeLoopW_fail n (passSorted s start) (passInvState s start).1 []
      hpflag hperr hnodupS hfail
  refine ⟨heq, by rw [heq], by rw [heq], pre, fid, post, hsplit, ?_, hnodes, hinvf, ?_⟩
  · intro hmem
    have hnd := hnodupS
    rw [hsplit] at hnd
    exact (List.nodup_append.mp hnd).2.2 hmem (List.mem_cons_self fid post)
  · intro entry he
    rcases hacc entry he with hin | hin
    · exact absurd hin (List.not_mem_nil entry)
    · exact hin

/-- C2, witness for the amended theorem at a concrete input. -/
theorem C2_amended_witness :
    recomputeF 2 exFailSt "N1" = { (passLoop 1 exFailSt "N1").1 with flag := false } :=
  (C2_amended 1 exFailSt "N1" rfl rfl (by decide)).1

/-! ### C3 — reentrancy of coordinated updates -/

/-- A compute function that writes `B[0] = 5` while it runs and then copies
`"A"`. -/
def cfWriteB : CFun Nat Int := { writes := [("B", 0, 5)], result := fun v => v "A" }

/-- A compute function doubling the values of base collection `"B"`. -/
def cfDoubleB : CFun Nat Int :=
  { result := fun v => (v "B").map (fun p => (p.1, 2 * p.2)) }

/-- Two independent chains: `A → C` (where `C`'s compute writes to base
collection `B`) and `B → D`. -/
def exInducedSt : St Nat Int :=
  { nodes := [("A", ⟨[], ["C"], false, none⟩),
              ("C", ⟨["A"], [], false, none⟩),
              ("B", ⟨[], ["D"], false, none⟩),
              ("D", ⟨["B"], [], false, none⟩)],
    colls := [("A", ⟨[], 1, [], none⟩),
              ("C", ⟨[], 2, [], some cfWriteB⟩),
              ("B", ⟨[], 3, [], none⟩),
              ("D", ⟨[], 4, [], some cfDoubleB⟩)],
    clock := 5 }

/-- C3, counterexample.  The external write `A[0]=1` triggers one pass that
recomputes only `C`.  `C`'s compute function writes `B[0]=5`; the nested
`recompute_invalidated("D")` returns at the flag test without marking `D`
invalidated, so after the external write returns, `D` was neither
invalidated nor recomputed (the compute log is `["C"]`), and its contents
are stale (`{}` instead of the `{0: 10}` its compute function returns on
the current store): the single pass does **not** cover the induced
invalidations. -/
theorem C3_counterexample :
    (pySet exInducedSt "A" 0 1).computeLog = ["C"] ∧
    (collOf (pySet exInducedSt "A" 0 1) "B").data = [(0, 5)] ∧
    (collOf (pySet exInducedSt "A" 0 1) "D").data = [] ∧
    (nodeOf (pySet exInducedSt "A" 0 1) "D").invalidated = false ∧
    cfDoubleB.result (storeView (pySet exInducedSt "A" 0 1)) = [(0, 10)] ∧
    (pySet exInducedSt "A" 0 1).flag = false ∧
    (pySet exInducedSt "A" 0 1).err = none := by
  exact ⟨rfl, rfl, rfl, rfl, rfl, rfl, rfl⟩

/-- C3, amended: while a coordinated update is in progress, a write
triggered from inside it never starts a second traversal —
`recompute_invalidated` returns immediately, leaving the state untouched
(in particular it does not even invalidate the written collection's
dependents, so induced invalidations outside the original invalidated set
are *not* covered by the in-flight pass; see the counterexample) — and
within one coordinated pass each node's compute function is invoked at most
once (the invocations are a duplicate-free sublist of the pass's
topological order). -/
theorem C3_amended (n : Nat) (s : St Nat Int) (start : String)
    (hflag : s.flag = false) :
    (∀ (m : Nat) (s' : St Nat Int) (j : String), s'.flag = true →
      recomputeF m s' j = s') ∧
    ∃ d, (recomputeF (n + 1) s start).computeLog = s.computeLog ++ d ∧
      d.Sublist (passSorted s start) ∧ d.Nodup := by
  refine ⟨fun m s' j h => recomputeF_flag m s' j h, ?_⟩
  have hpflag : (passInvState s start).1.flag = true := by
    unfold passInvState
    rw [(invalidateF_pres _ _ _).1]
  have hpcl : (passInvState s start).1.computeLog = s.computeLog := by
    unfold passInvState
    rw [(invalidateF_pres _ _ _).2.2.2.2.1]
  obtain ⟨d, e, sub⟩ :=
    computeLoopW_computeLog n (passSorted s start) (passInvState s start).1 [] hpflag
  have hnodupS : (passSorted s start).Nodup := (topoSortG_props _ _).1
  refine ⟨d, ?_, sub, List.Nodup.sublist sub hnodupS⟩
  rw [recomputeF_succ_eq n s start hflag]
  by_cases hfail : (passLoop n s start).1.err.isSome
  · rw [if_pos hfail]
    show (passLoop n s start).1.computeLog = s.computeLog ++ d
    rw [← hpcl]
    exact e
  · rw [if_neg hfail]
    show (dispatchLoopSt (passLoop n s start).1 (passSorted s start)
      (passLoop n s start).2).computeLog = s.computeLog ++ d
    rw [(dispatchLoopSt_pres _ _ _).1, ← hpcl]
    exact e

/-- C3, witness for the amended theorem at a concrete input. -/
theorem C3_amended_witness :
    ∃ d, (recomputeF (1 + 1) exInducedSt "A").computeLog =
        exInducedSt.computeLog ++ d ∧
      d.Sublist (passSorted exInducedSt "A") ∧ d.Nodup :=
  (C3_amended 1 exInducedSt "A" rfl).2

/-! ### C4 — dispatching of equal-value changes -/

/-- A one-collection state for exercising `Collection.set` (base collection
`"X"`, registered in the graph, no dependents). -/
def exSingle : St Nat Int :=
  { nodes := [("X", ⟨[], [], false, none⟩)],
    colls := [("X", ⟨[], 1, [], none⟩)],
    clock := 2 }

/-- C4, counterexample.  On the base collection `"X"`, `set(1, 9)` twice
dispatches a change to the change callbacks **both** times;
the second dispatched change has `old_value == new_value == 9`.  The claim
says the second call must yield no change. -/
theorem C4_counterexample :
    (pySet (pySet exSingle "X" 1 9) "X" 1 9).log =
      [("X", ⟨1, none, some 9, 0⟩), ("X", ⟨1, some 9, some 9, 0⟩)] ∧
    ((⟨1, some 9, some 9, 0⟩ : Chg Nat Int).oldValue =
      (⟨1, some 9, some 9, 0⟩ : Chg Nat Int).newValue) := by
  exact ⟨rfl, rfl⟩

/-- C4, amended: recomputation of a derived collection never emits a change
with `old == new` (the diff filters equal values), but `Collection.set` on a
base collection dispatches a change on *every* call, so `set(k, v)` twice
yields two dispatched changes, the second with `old == new == v`. -/
theorem C4_amended (old new : List (Nat × Int)) (r : St Nat Int → String → St Nat Int)
    (s : St Nat Int) (c : String) (k : Nat) (v : Int) (herr : s.err = none)
    (hobs : (nodeOf s c).dependents = []) (hcoll : (dget s.colls c).isSome) :
    (∀ ch ∈ (freshDiff old new).1, ch.oldValue ≠ ch.newValue) ∧
    (pySetW r (pySetW r s c k v) c k v).log =
      s.log ++ [(c, setChangeOf s c k v), (c, mkChg k (some v) (some v))] := by
  constructor
  · exact freshDiff_changes_ne old new
  · obtain ⟨hlog1, herr1, hdata1, _, hnodes1, hcoll1, _⟩ :=
      pySetW_no_obs r s c k v herr hobs hcoll
    have hobs1 : (nodeOf (pySetW r s c k v) c).dependents = [] := by
      rw [nodeOf, hnodes1, ← nodeOf]; exact hobs
    obtain ⟨hlog2, _, _, _, _, _, _⟩ :=
      pySetW_no_obs r (pySetW r s c k v) c k v herr1 hobs1 hcoll1
    have : setChangeOf (pySetW r s c k v) c k v = mkChg k (some v) (some v) := by
      rw [setChangeOf, hdata1, dget_dset_self]
    rw [hlog2, hlog1, this]
    simp

/-- C4, witness for the amended theorem at a concrete input. -/
theorem C4_amended_witness :
    (pySetW (fun st _ => st) (pySetW (fun st _ => st) exSingle "X" 1 9) "X" 1 9).log =
      exSingle.log ++ [("X", setChangeOf exSingle "X" 1 9), ("X", mkChg 1 (some 9) (some 9))] :=
  (C4_amended [] [] (fun st _ => st) exSingle "X" 1 9 rfl rfl (by decide)).2

/-! ### C5 — `add_dependency` and cycles -/

/-- Two registered collections with no edges yet. -/
def exTwoNodes : St Nat Int :=
  { nodes := [("A", ⟨[], [], false, none⟩), ("B", ⟨[], [], false, none⟩)],
    colls := [("A", ⟨[], 1, [], none⟩), ("B", ⟨[], 1, [], none⟩)],
    clock := 2 }

/-- C5, counterexample.  `add_dependency(A, B)` followed by
`add_dependency(B, A)` succeeds: the second call mutates the graph (no
rejection, no error path exists in the code) and afterwards `A` and `B` each
list the other as a dependency — a cycle. -/
theorem C5_counterexample :
    (nodeOf (addDependency (addDependency exTwoNodes "A" "B") "B" "A") "A").dependencies = ["B"] ∧
    (nodeOf (addDependency (addDependency exTwoNodes "A" "B") "B" "A") "B").dependencies = ["A"] ∧
    (addDependency (addDependency exTwoNodes "A" "B") "B" "A").nodes ≠
      (addDependency exTwoNodes "A" "B").nodes := by
  exact ⟨rfl, rfl, by decide⟩

/-- C5, amended: for registered collections, `add_dependency(dependent,
dependency)` *unconditionally* records the edge — appending `dependent` to
the dependency's `dependents` and `dependency` to the dependent's
`dependencies`, each only when not already present — performing no cycle
check and surfacing no error; nothing else in the state changes, even when
the new edge closes a cycle.  Cycles are only detected later, as warnings,
by the topological sort. -/
theorem C5_amended (s : St Nat Int) (a b : String)
    (ha : (dget s.nodes a).isSome) (hb : (dget s.nodes b).isSome) (hab : a ≠ b) :
    (nodeOf (addDependency s a b) b).dependents =
      (if a ∈ (nodeOf s b).dependents then (nodeOf s b).dependents
       else (nodeOf s b).dependents ++ [a]) ∧
    (nodeOf (addDependency s a b) a).dependencies =
      (if b ∈ (nodeOf s a).dependencies then (nodeOf s a).dependencies
       else (nodeOf s a).dependencies ++ [b]) ∧
    (nodeOf (addDependency s a b) a).dependents = (nodeOf s a).dependents ∧
    (nodeOf (addDependency s a b) b).dependencies = (nodeOf s b).dependencies ∧
    (∀ x, x ≠ a → x ≠ b → dget (addDependency s a b).nodes x = dget s.nodes x) ∧
    (addDependency s a b).colls = s.colls ∧
    (addDependency s a b).err = s.err := by
  unfold addDependency
  dsimp only
  by_cases h1 : a ∈ (nodeOf s b).dependents
  · rw [if_pos h1]
    by_cases h2 : b ∈ (nodeOf s a).dependencies
    · rw [if_pos h2, if_pos h1, if_pos h2]
      exact ⟨rfl, rfl, rfl, rfl, fun x _ _ => rfl, rfl, rfl⟩
    · rw [if_neg h2, if_pos h1, if_neg h2]
      refine ⟨?_, ?_, ?_, ?_, ?_, rfl, rfl⟩
      · rw [nodeOf_updateNode_ne s a b _ hab]
      · rw [nodeOf_updateNode_self s a _ ha]
      · rw [nodeOf_updateNode_self s a _ ha]
      · rw [nodeOf_updateNode_ne s a b _ hab]
      · intro x hxa hxb
        simp [updateNode, dget_dmodify_ne _ _ _ _ (Ne.symm hxa)]
  · rw [if_neg h1]
    have h2eq : (nodeOf (updateNode s b
        (fun nd => { nd with dependents := nd.dependents ++ [a] })) a).dependencies =
        (nodeOf s a).dependencies := by
      rw [nodeOf_updateNode_ne s b a _ (Ne.symm hab)]
    rw [h2eq]
    have hb' : (dget (updateNode s b
        (fun nd => { nd with dependents := nd.dependents ++ [a] })).nodes a).isSome := by
      simp only [updateNode, dget_dmodify_ne _ _ _ _ (Ne.symm hab)]
      exact ha
    by_cases h2 : b ∈ (nodeOf s a).dependencies
    · rw [if_pos h2, if_neg h1, if_pos h2]
      refine ⟨?_, ?_, ?_, ?_, ?_, rfl, rfl⟩
      · rw [nodeOf_updateNode_self s b _ hb]
      · rw [nodeOf_updateNode_ne s b a _ (Ne.symm hab)]
      · rw [nodeOf_updateNode_ne s b a _ (Ne.symm hab)]
      · rw [nodeOf_updateNode_self s b _ hb]
      · intro x hxa hxb
        simp [updateNode, dget_dmodify_ne _ _ _ _ (Ne.symm hxb)]
    · rw [if_neg h2, if_neg h1, if_neg h2]
      refine ⟨?_, ?_, ?_, ?_, ?_, rfl, rfl⟩
      · rw [nodeOf_updateNode_ne _ a b _ hab, nodeOf_updateNode_self s b _ hb]
      · rw [nodeOf_updateNode_self _ a _ hb', nodeOf_updateNode_ne s b a _ (Ne.symm hab)]
      · rw [nodeOf_updateNode_self _ a _ hb', nodeOf_updateNode_ne s b a _ (Ne.symm hab)]
      · rw [nodeOf_updateNode_ne _ a b _ hab, nodeOf_updateNode_self s b _ hb]
      · intro x hxa hxb
        simp [updateNode, dget_dmodify_ne _ _ _ _ (Ne.symm hxa),
          dget_dmodify_ne _ _ _ _ (Ne.symm hxb)]

/-- C5, witness for the amended theorem at a concrete input. -/
theorem C5_amended_witness :
    (nodeOf (addDependency exTwoNodes "A" "B") "B").dependents =
      (if "A" ∈ (nodeOf exTwoNodes "B").dependents then (nodeOf exTwoNodes "B").dependents
       else (nodeOf exTwoNodes "B").dependents ++ ["A"]) :=
  (C5_amended exTwoNodes "A" "B" (by decide) (by decide) (by decide)).1

/-! ### C9 — shape of `update` event data -/

/-- C9, counterexample.  A change updating a key to the integer `0` — a
present (non-`None`) new value, not a deletion — produces an `update` event
whose inner array is empty, because the code tests Python truthiness
(`[change.new_value] if change.new_value else []`), not presence. -/
theorem C9_counterexample :
    onChangeUpdateData ⟨.str "k", .int 1, .int 0⟩ = [(.str "k", [])] ∧
    (⟨.str "k", .int 1, .int 0⟩ : ChgP).newValue ≠ PyVal.none := by
  exact ⟨rfl, by decide⟩

/-- C9, amended: the inner array of an `update` event is `[new_value]` when
the new value is *truthy*, and `[]` when it is *falsy* — so it is empty for
every deletion (new value `None`), but also for present falsy values such as
`0`, `""` and `False`; emptiness is **not** equivalent to deletion. -/
theorem C9_amended (ch : ChgP) :
    (onChangeUpdateData ch = [(ch.key, [])] ↔ truthy ch.newValue = false) ∧
    (onChangeUpdateData ch = [(ch.key, [ch.newValue])] ↔ truthy ch.newValue = true) ∧
    (ch.newValue = PyVal.none → onChangeUpdateData ch = [(ch.key, [])]) := by
  refine ⟨?_, ?_, ?_⟩
  · cases h : truthy ch.newValue <;> simp [onChangeUpdateData, h]
  · cases h : truthy ch.newValue <;> simp [onChangeUpdateData, h]
  · intro h
    simp [onChangeUpdateData, h, truthy]

/-- C9, witness for the amended theorem at a concrete input. -/
theorem C9_amended_witness :
    onChangeUpdateData ⟨.str "k", .int 1, .int 2⟩ = [(.str "k", [.int 2])] :=
  ((C9_amended ⟨.str "k", .int 1, .int 2⟩).2.1).mpr (by decide)

/-! ### C7 — instance creation and reuse -/

/-- Well-formedness of a `ResourceManager` state: every instance id already
recorded (as a registry key or a parameter-index value) was minted by an
earlier `counter` value.  An empty manager satisfies it, and
`createInstance` preserves it; it expresses that freshly generated uuids
differ from all existing ones. -/
def WFrm (rm : RMgr) : Prop :=
  (∀ iid, (dget rm.instances iid).isSome → iid < rm.counter) ∧
  (∀ n inner, dget rm.byParams n = some inner →
    ∀ h j, dget inner h = some j → j < rm.counter)

/-- A sample leaf collection for the resource-layer examples. -/
def exColl : CollLite := ⟨[(.str "k", .int 7)], []⟩

/-- `create_instance` on a parameter-fingerprint hit returns the existing id
and leaves the manager unchanged. -/
theorem createInstance_found (rm : RMgr) (name : String)
    (params : List (String × String)) (c : CollLite) (i : Nat)
    (h : findExisting rm name params = some i) :
    createInstance rm name params c = (i, rm) := by
  unfold createInstance
  rw [h]

/-- `create_instance` on a miss mints `counter` as the fresh id and records
the instance. -/
theorem createInstance_miss (rm : RMgr) (name : String)
    (params : List (String × String)) (c : CollLite)
    (h : findExisting rm name params = none) :
    createInstance rm name params c =
      (rm.counter,
       { rm with
         instances := dset rm.instances rm.counter ⟨name, params⟩
         collections := dset rm.collections rm.counter c
         subscribers := dset rm.subscribers rm.counter []
         byParams := dset rm.byParams name
           (dset ((dget rm.byParams name).getD []) (paramHash name params) rm.counter)
         counter := rm.counter + 1 }) := by
  unfold createInstance
  rw [h]

/-- C7, counterexample.  The success response of a create-stream request is
`{"instance_id": instance_id}` and nothing else: it has no `reused` key at
all, so the claimed `reused:false` / `reused:true` responses do not occur. -/
theorem C7_counterexample :
    dget (createStreamResponse
      (createInstance {} "r" [("p", "1")] exColl).1).1 "reused" = none ∧
    (createStreamResponse
      (createInstance {} "r" [("p", "1")] exColl).1).1.map Prod.fst = ["instance_id"] := by
  exact ⟨rfl, rfl⟩

/-- C7, amended: `create_instance(name, params, collection)` returns the
existing instance id unchanged whenever the (name, parameter-fingerprint)
pair is already recorded, and otherwise mints a fresh id (distinct from
every recorded one) and records the instance — so a second request with
identical params returns the same id, and a request with a different
parameter fingerprint returns a different id.  **No `reused` flag exists**:
the create-stream response contains exactly the `instance_id` key. -/
theorem C7_amended (rm : RMgr) (name : String)
    (params params' : List (String × String)) (c c' : CollLite)
    (hwf : WFrm rm) :
    (∀ i, findExisting rm name params = some i →
      createInstance rm name params c = (i, rm)) ∧
    (findExisting rm name params = none →
      (createInstance rm name params c).1 = rm.counter ∧
      dget rm.instances (createInstance rm name params c).1 = none ∧
      createInstance (createInstance rm name params c).2 name params c' =
        ((createInstance rm name params c).1, (createInstance rm name params c).2) ∧
      (sortParams params' ≠ sortParams params →
        findExisting rm name params' = none →
        (createInstance (createInstance rm name params c).2 name params' c').1 ≠
          (createInstance rm name params c).1)) ∧
    (∀ i, (createStreamResponse i).1 = [("instance_id", i)] ∧
      dget (createStreamResponse i).1 "reused" = none) := by
  obtain ⟨hwfI, hwfP⟩ := hwf
  refine ⟨fun i hi => createInstance_found rm name params c i hi, ?_, fun i => ⟨rfl, rfl⟩⟩
  intro hmiss
  have hcr := createInstance_miss rm name params c hmiss
  have hid : (createInstance rm name params c).1 = rm.counter := by rw [hcr]
  have hrm2 : (createInstance rm name params c).2 =
      { rm with
        instances := dset rm.instances rm.counter ⟨name, params⟩
        collections := dset rm.collections rm.counter c
        subscribers := dset rm.subscribers rm.counter []
        byParams := dset rm.byParams name
          (dset ((dget rm.byParams name).getD []) (paramHash name params) rm.counter)
        counter := rm.counter + 1 } := by rw [hcr]
  refine ⟨hid, ?_, ?_, ?_⟩
  · rw [hid]
    cases hg : dget rm.instances rm.counter with
    | none => rfl
    | some x =>
        have : rm.counter < rm.counter := hwfI rm.counter (by simp [hg])
        exact absurd this (lt_irrefl _)
  · -- the second identical request finds the freshly recorded instance
    have hfind2 : findExisting (createInstance rm name params c).2 name params =
        some rm.counter := by
      rw [hrm2]
      unfold findExisting
      simp [dget_dset_self]
    rw [createInstance_found _ name params c' rm.counter hfind2, hid]
  · intro hparams hmiss'
    have hhash : paramHash name params' ≠ paramHash name params := by
      intro e
      exact hparams (congrArg Prod.snd e)
    -- the different fingerprint still misses in the updated manager
    have hfind2 : findExisting (createInstance rm name params c).2 name params' =
        none := by
      rw [hrm2]
      unfold findExisting
      simp only [dget_dset_self]
      rw [dget_dset_ne _ _ _ _ (Ne.symm hhash)]
      cases hbp : dget rm.byParams name with
      | none => simp
      | some inner =>
          unfold findExisting at hmiss'
          rw [hbp] at hmiss'
          simp only [Option.getD_some]
          cases hin : dget inner (paramHash name params') with
          | none => simp
          | some j =>
              simp only [hin] at hmiss'
              have hj : j < rm.counter := hwfP name inner hbp _ j hin
              have hjeq : dget (dset rm.instances rm.counter ⟨name, params⟩) j =
                  dget rm.instances j :=
                dget_dset_ne _ _ _ _ (Nat.ne_of_lt hj).symm
              have hjnone : dget rm.instances j = none := by
                cases hg : dget rm.instances j with
                | none => rfl
                | some _ => rw [hg] at hmiss'; simp at hmiss'
              simp [hjeq, hjnone]
    rw [createInstance_miss _ name params' c' hfind2, hid, hrm2]
    exact Nat.succ_ne_self rm.counter

/-- C7, witness for the amended theorem at a concrete input. -/
theorem C7_amended_witness :
    createInstance (createInstance {} "r" [("p", "1")] exColl).2 "r" [("p", "1")] exColl =
      ((createInstance {} "r" [("p", "1")] exColl).1,
       (createInstance {} "r" [("p", "1")] exColl).2) :=
  ((C7_amended {} "r" [("p", "1")] [("p", "2")] exColl exColl
    (by constructor <;> intro <;> simp [dget])).2.1 rfl).2.2.1

/-! ### C8 — `subscribe` raises `TypeError` on every registered instance -/

/-- The manager right after creating one instance of resource `"r"`. -/
def rmC8 : RMgr :=
  { (createInstance {} "r" [("a", "1")] exColl).2 with queues := [(5, [])] }

/-- The id of that instance. -/
def iidC8 : Nat := (createInstance {} "r" [("a", "1")] exColl).1

/-- C8 (code bug).  For the registered instance, `subscribe` adds the weak
subscriber and enqueues the `init` snapshot — and then raises `TypeError`,
because `collection.add_change_callback(instance_id, on_change)` passes two
positional arguments to a method defined with a single parameter
(`core/collection.py` line 61); the change callback is never installed.  For
an unregistered id it raises the claimed `ValueError`.  The claim (and the
spec) describe the evident intent — the sibling `reactive` package defines
`add_change_callback(self, instance_id, callback)` — so the call here is a
slip, not a design. -/
theorem C8_code_bug :
    (rmSubscribe rmC8 iidC8 5).2 = some PyErr.typeError ∧
    dget (rmSubscribe rmC8 iidC8 5).1.queues 5 =
      some [⟨"init", .items [(.str "k", .int 7)]⟩] ∧
    dget (rmSubscribe rmC8 iidC8 5).1.subscribers iidC8 = some [5] ∧
    dget (rmSubscribe rmC8 iidC8 5).1.collections iidC8 = some ⟨[(.str "k", .int 7)], []⟩ ∧
    (rmSubscribe rmC8 99 5).2 = some PyErr.valueError := by
  exact ⟨rfl, rfl, rfl, rfl, rfl⟩

/-! ### C10 — pydantic default timestamps are fixed at class definition -/

/-- C10.  Every `Change` built without an explicit timestamp — the changes
of `set` and `delete` and every change emitted by derived-collection
recomputation — carries the single class-definition-time default timestamp:
changes made at any two moments have equal timestamps, and whenever the
current instant differs from that default the timestamp does not record the
mutation instant (which *is* recorded in `_last_modified`).  The same holds
for `ComputeResult.computed_at` as stored by the cache write of
`_compute`. -/
theorem C10_default_timestamps (r : St Nat Int → String → St Nat Int)
    (s s' : St Nat Int) (c c' : String) (k k' : Nat) (v v' : Int)
    (old new : List (Nat × Int)) (chs : List (Chg Nat Int))
    (key : List (String × Nat))
    (herr : s.err = none) (hobs : (nodeOf s c).dependents = [])
    (hcoll : (dget s.colls c).isSome) :
    (setChangeOf s c k v).timestamp = changeDefaultTimestamp ∧
    (deleteChangeOf s c k).timestamp = changeDefaultTimestamp ∧
    (setChangeOf s c k v).timestamp = (setChangeOf s' c' k' v').timestamp ∧
    ((pySetW r s c k v).log = s.log ++ [(c, setChangeOf s c k v)] ∧
      (collOf (pySetW r s c k v) c).lastModified = s.clock) ∧
    ((pyDeleteW r s c k).log = s.log ++ [(c, deleteChangeOf s c k)] ∧
      (collOf (pyDeleteW r s c k) c).lastModified = s.clock) ∧
    (s.clock ≠ changeDefaultTimestamp →
      (setChangeOf s c k v).timestamp ≠ s.clock) ∧
    (∀ ch ∈ (freshDiff old new).1, ch.timestamp = changeDefaultTimestamp) ∧
    (storedCompRes chs key).computedAt = compResDefaultTimestamp := by
  obtain ⟨hlog, _, _, hlm, _, _, _⟩ := pySetW_no_obs r s c k v herr hobs hcoll
  obtain ⟨hdlog, hdlm⟩ := pyDeleteW_no_obs r s c k herr hobs hcoll
  refine ⟨rfl, rfl, rfl, ⟨hlog, hlm⟩, ⟨hdlog, hdlm⟩, ?_, freshDiff_changes_timestamp old new, rfl⟩
  intro hclock
  simpa [setChangeOf, mkChg] using Ne.symm hclock

/-- C10, witness at a concrete input. -/
theorem C10_default_timestamps_witness :
    (setChangeOf exSingle "X" 1 9).timestamp = changeDefaultTimestamp ∧
    (setChangeOf exSingle "X" 1 9).timestamp ≠ exSingle.clock :=
  ⟨(C10_default_timestamps (fun st _ => st) exSingle exSingle "X" "X" 1 1 9 9 [] [] [] []
      rfl rfl (by decide)).1,
   (C10_default_timestamps (fun st _ => st) exSingle exSingle "X" "X" 1 1 9 9 [] [] [] []
      rfl rfl (by decide)).2.2.2.2.2.1 (by decide)⟩

/-! ### C6 — the topological sort -/

/-- The dependency list the DFS walk of `_topological_sort` follows for a
node: the `dependencies` field of the node record, empty for unknown ids. -/
def depsOfG (g : List (String × NodeR)) (x : String) : List String :=
  ((dget g x).getD default).dependencies

/-- Every known dependency of an emitted node appears strictly before it in
the emitted list. -/
def depsPrecede (g : List (String × NodeR)) (res : List String) : Prop :=
  ∀ pre x post, res = pre ++ x :: post →
    ∀ d ∈ depsOfG g x, (dget g d).isSome → d ∈ pre

theorem depsPrecede_nil (g : List (String × NodeR)) : depsPrecede g [] := by
  intro pre x post heq d hd hs
  have hlen : ([] : List String).length = (pre ++ x :: post).length := by rw [heq]
  simp only [List.length_nil, List.length_append, List.length_cons] at hlen
  omega

/-- Decomposing a snoc list around a distinguished element: either the
element is the appended one, or the decomposition lives in the prefix. -/
theorem append_singleton_decomp {α : Type} :
    ∀ (pre l : List α) (a x : α) (post : List α),
      l ++ [a] = pre ++ x :: post →
      (pre = l ∧ x = a ∧ post = []) ∨
      (∃ post2, l = pre ++ x :: post2 ∧ post = post2 ++ [a]) := by
  intro pre
  induction pre with
  | nil =>
      intro l a x post heq
      cases l with
      | nil =>
          simp only [List.nil_append, List.cons.injEq] at heq
          exact Or.inl ⟨rfl, heq.1.symm, heq.2.symm⟩
      | cons y t =>
          simp only [List.nil_append, List.cons_append, List.cons.injEq] at heq
          refine Or.inr ⟨t, ?_, heq.2.symm⟩
          simp [heq.1]
  | cons p pt ih =>
      intro l a x post heq
      cases l with
      | nil =>
          simp only [List.nil_append, List.cons_append, List.cons.injEq] at heq
          exact absurd heq.2.symm (by simp)
      | cons y t =>
          simp only [List.cons_append, List.cons.injEq] at heq
          obtain ⟨h1, h2⟩ := heq
          rcases ih t a x post h2 with ⟨hp, hx, hpost⟩ | ⟨post2, hl, hpost⟩
          · refine Or.inl ⟨?_, hx, hpost⟩
            rw [h1, hp]
          · refine Or.inr ⟨post2, ?_, hpost⟩
            simp [h1, hl]

theorem depsPrecede_append_one (g : List (String × NodeR)) (l : List String)
    (a : String) (hl : depsPrecede g l)
    (ha : ∀ d ∈ depsOfG g a, (dget g d).isSome → d ∈ l) :
    depsPrecede g (l ++ [a]) := by
  intro pre x post heq d hd hs
  rcases append_singleton_decomp pre l a x post heq with ⟨hp, hx, _⟩ | ⟨post2, hl2, _⟩
  · subst hx
    rw [hp]
    exact ha d hd hs
  · exact hl pre x post2 hl2 d hd hs

/-- Pushing a fresh known node onto the temp stack strictly shrinks the set
of known nodes not yet on the stack — the measure showing the DFS fuel
budget of `topoSortG` never runs out. -/
theorem sdiff_cons_card_lt (keys temp : List String) (id : String)
    (hmem : id ∈ keys) (hnot : id ∉ temp) :
    (keys.toFinset \ (id :: temp).toFinset).card <
      (keys.toFinset \ temp.toFinset).card := by
  have he : keys.toFinset \ (id :: temp).toFinset =
      (keys.toFinset \ temp.toFinset).erase id := by
    ext a
    simp only [List.toFinset_cons, Finset.mem_sdiff, Finset.mem_insert,
      Finset.mem_erase, List.mem_toFinset, not_or]
    tauto
  rw [he]
  exact Finset.card_erase_lt_of_mem
    (Finset.mem_sdiff.mpr ⟨List.mem_toFinset.mpr hmem,
      fun hc => hnot (List.mem_toFinset.mp hc)⟩)

/-- Folding further DFS visits over a list only ever appends, so membership
in the accumulator is preserved. -/
theorem visitF_fold_mem (g : List (String × NodeR)) (n : Nat)
    (tmp : List String) :
    ∀ (ds res : List String) (x : String), x ∈ res →
      x ∈ ds.foldl (fun r dd => visitF g n tmp r dd) res := by
  intro ds
  induction ds with
  | nil =>
      intro res x hx
      simpa using hx
  | cons dd t iht =>
      intro res x hx
      simp only [List.foldl_cons]
      apply iht
      obtain ⟨d1, e1, _, _⟩ := visitF_props g n tmp res dd
      rw [e1]
      exact List.mem_append_left _ hx

/-- Under a rank function that strictly decreases along dependency edges —
the shape every finite acyclic graph admits, and which conversely forbids
cycles — the DFS visit preserves the dependencies-precede-dependents
invariant and emits the visited node.  The fuel hypothesis counts known
nodes not yet on the temp stack. -/
theorem visitF_sorted (g : List (String × NodeR)) (rank : String → Nat)
    (hrank : ∀ x d, d ∈ depsOfG g x → rank d < rank x) :
    ∀ (fuel : Nat) (temp res : List String) (id : String),
      ((g.map Prod.fst).toFinset \ temp.toFinset).card < fuel →
      (∀ t ∈ temp, rank id < rank t) →
      depsPrecede g res →
      depsPrecede g (visitF g fuel temp res id) ∧
        ((dget g id).isSome → id ∉ temp → id ∈ visitF g fuel temp res id) := by
  intro fuel
  induction fuel with
  | zero =>
      intro temp res id hf htemp hres
      exact absurd hf (Nat.not_lt_zero _)
  | succ n ih =>
      intro temp res id hf htemp hres
      by_cases h1 : id ∈ temp
      · have e : visitF g (n + 1) temp res id = res := by
          simp only [visitF]
          rw [if_pos h1]
        rw [e]
        exact ⟨hres, fun _ hni => absurd h1 hni⟩
      · by_cases h2 : id ∉ res ∧ (dget g id).isSome
        · have hmemkeys : id ∈ g.map Prod.fst :=
            (dget_isSome_iff_mem_keys g id).mp h2.2
          have hfn : ((g.map Prod.fst).toFinset \
              (id :: temp).toFinset).card < n := by
            have hlt := sdiff_cons_card_lt (g.map Prod.fst) temp id hmemkeys h1
            omega
          have hfold : ∀ (ds : List String), (∀ d ∈ ds, d ∈ depsOfG g id) →
              ∀ (res : List String), depsPrecede g res →
              depsPrecede g
                (ds.foldl (fun r dd => visitF g n (id :: temp) r dd) res) ∧
              (∀ d ∈ ds, (dget g d).isSome → d ∉ id :: temp →
                d ∈ ds.foldl (fun r dd => visitF g n (id :: temp) r dd) res) := by
            intro ds
            induction ds with
            | nil =>
                intro _ res hres2
                exact ⟨hres2, by simp⟩
            | cons dd t iht =>
                intro hsub res hres2
                simp only [List.foldl_cons]
                have hdd : dd ∈ depsOfG g id := hsub dd (List.mem_cons_self dd t)
                have htemp2 : ∀ s ∈ id :: temp, rank dd < rank s := by
                  intro s hsm
                  rcases List.mem_cons.mp hsm with hsm | hsm
                  · rw [hsm]
                    exact hrank id dd hdd
                  · exact (hrank id dd hdd).trans (htemp s hsm)
                obtain ⟨hp1, hm1⟩ := ih (id :: temp) res dd hfn htemp2 hres2
                obtain ⟨hp2, hm2⟩ :=
                  iht (fun d hdm => hsub d (List.mem_cons_of_mem dd hdm))
                    (visitF g n (id :: temp) res dd) hp1
                refine ⟨hp2, ?_⟩
                intro d hdm hds hdt
                rcases List.mem_cons.mp hdm with hdm | hdm
                · subst hdm
                  exact visitF_fold_mem g n (id :: temp) t _ d (hm1 hds hdt)
                · exact hm2 d hdm hds hdt
          obtain ⟨hpf, hmf⟩ := hfold (depsOfG g id) (fun d hd => hd) res hres
          have e : visitF g (n + 1) temp res id =
              ((depsOfG g id).foldl
                (fun r dd => visitF g n (id :: temp) r dd) res) ++ [id] := by
            unfold depsOfG
            simp only [visitF]
            rw [if_neg h1, if_pos h2]
          rw [e]
          constructor
          · apply depsPrecede_append_one g _ id hpf
            intro d hd hds
            by_cases hdt : d ∈ id :: temp
            · rcases List.mem_cons.mp hdt with hdt | hdt
              · have hlt := hrank id d hd
                rw [hdt] at hlt
                omega
              · have hlt1 := hrank id d hd
                have hlt2 := htemp d hdt
                omega
            · exact hmf d hd hds hdt
          · intro _ _
            exact List.mem_append_right _ (List.mem_singleton.mpr rfl)
        · have e : visitF g (n + 1) temp res id = res := by
            simp only [visitF]
            rw [if_neg h1, if_neg h2]
          rw [e]
          refine ⟨hres, fun hs _ => ?_⟩
          rcases not_and_or.mp h2 with h3 | h3
          · exact not_not.mp h3
          · exact absurd hs h3

/-- `_topological_sort` started on a supplied id set: order soundness and
membership of every known supplied node. -/
theorem topoSortG_sorted (g : List (String × NodeR)) (rank : String → Nat)
    (hrank : ∀ x d, d ∈ depsOfG g x → rank d < rank x) (ids : List String) :
    depsPrecede g (topoSortG g ids) ∧
      ∀ x ∈ ids, (dget g x).isSome → x ∈ topoSortG g ids := by
  unfold topoSortG
  suffices h : ∀ (l res : List String), depsPrecede g res →
      depsPrecede g
        (l.foldl (fun res id => visitF g (g.length + 1) [] res id) res) ∧
      (∀ x, x ∈ res ∨ (x ∈ l ∧ (dget g x).isSome) →
        x ∈ l.foldl (fun res id => visitF g (g.length + 1) [] res id) res) by
    obtain ⟨h1, h2⟩ := h ids [] (depsPrecede_nil g)
    exact ⟨h1, fun x hx hs => h2 x (Or.inr ⟨hx, hs⟩)⟩
  intro l
  induction l with
  | nil =>
      intro res hres
      simp only [List.foldl_nil]
      refine ⟨hres, ?_⟩
      rintro x (hx | ⟨hx, _⟩)
      · exact hx
      · simp at hx
  | cons id t iht =>
      intro res hres
      simp only [List.foldl_cons]
      have hfuel : ((g.map Prod.fst).toFinset \
          ([] : List String).toFinset).card < g.length + 1 := by
        have hcard : (g.map Prod.fst).toFinset.card ≤ (g.map Prod.fst).length :=
          List.toFinset_card_le _
        rw [List.toFinset_nil, Finset.sdiff_empty]
        rw [List.length_map] at hcard
        omega
      obtain ⟨hp, hm⟩ := visitF_sorted g rank hrank (g.length + 1) [] res id hfuel
        (by intro s hs; simp at hs) hres
      obtain ⟨hp2, hm2⟩ := iht (visitF g (g.length + 1) [] res id) hp
      refine ⟨hp2, ?_⟩
      intro x hx
      rcases hx with hx | ⟨hxm, hxs⟩
      · refine hm2 x (Or.inl ?_)
        obtain ⟨d1, e1, _, _⟩ := visitF_props g (g.length + 1) [] res id
        rw [e1]
        exact List.mem_append_left _ hx
      · rcases List.mem_cons.mp hxm with hxe | hxm2
        · refine hm2 x (Or.inl ?_)
          rw [hxe]
          exact hm (hxe ▸ hxs) (by simp)
        · exact hm2 x (Or.inr ⟨hxm2, hxs⟩)

/-- A two-node graph for exercising the topological sort: `B` depends on
`A`. -/
def gC6 : List (String × NodeR) :=
  [("A", { dependencies := [], dependents := ["B"], invalidated := false,
           lastComputed := none }),
   ("B", { dependencies := ["A"], dependents := [], invalidated := false,
           lastComputed := none })]

/-- C6, counterexample.  The sort is claimed to return an ordering
restricted to the supplied node set (containing exactly the supplied
nodes), but the DFS emits every transitive dependency of a supplied node as
well: sorting the singleton set containing only `B` also emits `A`. -/
theorem C6_counterexample :
    "A" ∈ topoSortG gC6 ["B"] ∧ "A" ∉ ["B"] ∧
      topoSortG gC6 ["B"] = ["A", "B"] := by
  decide

/-- C6 (amended).  Over an acyclic graph — acyclicity witnessed by a rank
function that strictly decreases along dependency edges, the shape every
finite acyclic graph admits and which conversely forbids cycles — the
topological sort `topoSortG` emits only known nodes, without duplicates, it
contains every known supplied node (but is not restricted to the supplied
set: emitted dependencies may lie outside it), the walk is depth-first over
`dependencies` in list order with post-order emission, and every known
dependency of an emitted node appears strictly before its dependent. -/
theorem C6_amended (g : List (String × NodeR)) (rank : String → Nat)
    (hrank : ∀ x d, d ∈ depsOfG g x → rank d < rank x) (ids : List String) :
    (topoSortG g ids).Nodup ∧
    (∀ x ∈ topoSortG g ids, (dget g x).isSome) ∧
    (∀ x ∈ ids, (dget g x).isSome → x ∈ topoSortG g ids) ∧
    (∀ pre x post, topoSortG g ids = pre ++ x :: post →
      ∀ d ∈ depsOfG g x, (dget g d).isSome → d ∈ pre) := by
  obtain ⟨h1, h2⟩ := topoSortG_props g ids
  obtain ⟨h3, h4⟩ := topoSortG_sorted g rank hrank ids
  exact ⟨h1, h2, h4, h3⟩

/-- C6, witness at a concrete input: ranking `B` above its dependency `A`
discharges the acyclicity hypothesis for `gC6`. -/
theorem C6_amended_witness :
    "B" ∈ topoSortG gC6 ["B"] ∧ (topoSortG gC6 ["B"]).Nodup := by
  have hr : ∀ (x d : String), d ∈ depsOfG gC6 x →
      (if d = "B" then (1 : Nat) else 0) < (if x = "B" then (1 : Nat) else 0) := by
    intro x d hd
    by_cases hB : ("B" : String) = x
    · subst hB
      have e1 : depsOfG gC6 "B" = ["A"] := rfl
      rw [e1, List.mem_singleton] at hd
      subst hd
      decide
    · by_cases hA : ("A" : String) = x
      · subst hA
        have e2 : depsOfG gC6 "A" = [] := rfl
        rw [e2] at hd
        exact absurd hd (List.not_mem_nil d)
      · have h0 : dget gC6 x = none := by
          simp [gC6, dget, hA, hB]
        simp only [depsOfG] at hd
        rw [h0] at hd
        have h1 : (((none : Option NodeR)).getD default).dependencies =
            ([] : List String) := rfl
        rw [h1] at hd
        exact absurd hd (List.not_mem_nil d)
  obtain ⟨h1, _, h3, _⟩ :=
    C6_amended gC6 (fun s => if s = "B" then (1 : Nat) else 0) hr ["B"]
  exact ⟨h3 "B" (by decide) (by decide), h1⟩

end ReactiveSpec
